import Mathlib

/-!
Verification development for the Prism storage engine (puji4810/Prism).

The C++ sources are shallowly embedded: bytes are `Nat` values below 256,
byte strings are `List Nat`, machine-integer arithmetic is `Nat` with
explicit `% 2 ^ w` where C++ overflow semantics matter, and fallible
operations return `Option` / an explicit status type.  Each definition
carries a comment naming the C++ function it translates.
-/

namespace Prism

/-! ### Fixed-width little-endian codec (util/coding.h / util/coding.cpp) -/

/-- Little-endian decode of a byte list (each byte reduced mod 256),
least significant byte first.  `DecodeFixed32`/`DecodeFixed64` read
exactly 4 resp. 8 bytes; callers pass `take 4` / `take 8`. -/
def decodeFixedLE : List Nat → Nat
  | [] => 0
  | b :: bs => b % 256 + 256 * decodeFixedLE bs

/-- Little-endian encode of `v` into exactly `w` bytes (`EncodeFixed32`
with `w = 4`, `EncodeFixed64` with `w = 8`); truncates above `2 ^ (8 * w)`. -/
def encodeFixedLE : Nat → Nat → List Nat
  | 0, _ => []
  | w + 1, v => v % 256 :: encodeFixedLE w (v / 256)

/-- `DecodeFixed32` (util/coding.h): little-endian read of 4 bytes. -/
def decodeFixed32 (bs : List Nat) : Nat := decodeFixedLE (bs.take 4)

/-- `DecodeFixed64` (util/coding.h): little-endian read of 8 bytes. -/
def decodeFixed64 (bs : List Nat) : Nat := decodeFixedLE (bs.take 8)

/-- `EncodeFixed32` (util/coding.h). -/
def encodeFixed32 (v : Nat) : List Nat := encodeFixedLE 4 v

/-- `EncodeFixed64` (util/coding.h). -/
def encodeFixed64 (v : Nat) : List Nat := encodeFixedLE 8 v

theorem encodeFixedLE_length (w v : Nat) : (encodeFixedLE w v).length = w := by
  induction w generalizing v with
  | zero => rfl
  | succ w ih => simp [encodeFixedLE, ih]

theorem decodeFixedLE_encodeFixedLE (w v : Nat) :
    decodeFixedLE (encodeFixedLE w v) = v % 2 ^ (8 * w) := by
  induction w generalizing v with
  | zero => simp [encodeFixedLE, decodeFixedLE, Nat.mod_one]
  | succ w ih =>
    simp only [encodeFixedLE, decodeFixedLE, ih]
    rw [Nat.mod_mod_of_dvd v (dvd_refl 256)]
    have h256 : (256 : Nat) = 2 ^ 8 := by norm_num
    rw [h256, Nat.mul_succ, Nat.pow_add,
      Nat.mul_comm (2 ^ (8 * w)) (2 ^ 8), Nat.mod_mul]

theorem encodeFixedLE_take (w v : Nat) (rest : List Nat) :
    (encodeFixedLE w v ++ rest).take w = encodeFixedLE w v := by
  rw [List.take_append_of_le_length (by simp [encodeFixedLE_length]),
    List.take_of_length_le (by simp [encodeFixedLE_length])]

theorem decodeFixed64_encodeFixed64 (v : Nat) (h : v < 2 ^ 64) :
    decodeFixed64 (encodeFixed64 v) = v := by
  have : (encodeFixed64 v).take 8 = encodeFixed64 v := by
    simpa using encodeFixedLE_take 8 v []
  rw [decodeFixed64, this, encodeFixed64, decodeFixedLE_encodeFixedLE]
  exact Nat.mod_eq_of_lt (by norm_num at h ⊢; omega)

/-! ### Varint codec (util/coding.cpp) -/

/-- `EncodeVarint64` (util/coding.cpp lines 49-60): LEB128, 7 value bits
per byte, high bit set on every byte except the last. -/
def encodeVarint64 (v : Nat) : List Nat :=
  if _ : v < 128 then [v % 128]
  else (v % 128 + 128) :: encodeVarint64 (v / 128)
  decreasing_by exact Nat.div_lt_self (by omega) (by omega)

/-- Loop of `GetVarint64Ptr` (util/coding.cpp lines 183-203).
`shift` runs over 0,7,…; the C++ `for` condition is
`shift <= 63 && p < limit`.  `result |= ((byte & 127) << shift)` is
64-bit arithmetic, hence the `% 2 ^ 64`.  Returns the decoded value and
the number of bytes consumed, or `none` where the C++ returns `nullptr`. -/
def getVarint64Loop : List Nat → Nat → Nat → Nat → Option (Nat × Nat)
  | [], _, _, _ => none
  | b :: rest, shift, result, consumed =>
    if shift ≤ 63 then
      let byte := b % 256
      if 128 ≤ byte then
        getVarint64Loop rest (shift + 7)
          (result ||| ((byte % 128) <<< shift) % 2 ^ 64) (consumed + 1)
      else some (result ||| (byte <<< shift) % 2 ^ 64, consumed + 1)
    else none

/-- `GetVarint64Ptr`: decode one varint64 from the front of `bs`. -/
def getVarint64 (bs : List Nat) : Option (Nat × Nat) :=
  getVarint64Loop bs 0 0 0

theorem getVarint64Loop_cons (b : Nat) (rest : List Nat)
    (shift result consumed : Nat) :
    getVarint64Loop (b :: rest) shift result consumed =
      if shift ≤ 63 then
        if 128 ≤ b % 256 then
          getVarint64Loop rest (shift + 7)
            (result ||| ((b % 256 % 128) <<< shift) % 2 ^ 64) (consumed + 1)
        else some (result ||| ((b % 256) <<< shift) % 2 ^ 64, consumed + 1)
      else none := rfl

/-- Helper: `x ||| y <<< k = x + y <<< k` when `x < 2 ^ k`. -/
theorem lor_shiftLeft_eq_add (x y k : Nat) (hx : x < 2 ^ k) :
    x ||| y <<< k = x + y <<< k := by
  rw [Nat.shiftLeft_eq, Nat.mul_comm, Nat.lor_comm,
    ← Nat.mul_add_lt_is_or hx, Nat.add_comm]

theorem getVarint64Loop_encode (v : Nat) : ∀ (n result consumed : Nat)
    (rest : List Nat), v < 2 ^ (64 - 7 * n) → n ≤ 9 → result < 2 ^ (7 * n) →
    getVarint64Loop (encodeVarint64 v ++ rest) (7 * n) result consumed
      = some (result + v * 2 ^ (7 * n),
              consumed + (encodeVarint64 v).length) := by
  induction v using Nat.strong_induction_on with
  | _ v ih =>
    intro n result consumed rest hv hn hres
    have hshift : 7 * n ≤ 63 := by omega
    by_cases h128 : v < 128
    · -- terminal byte
      have henc : encodeVarint64 v = [v % 128] := by
        rw [encodeVarint64]; simp [h128]
      have hm : v % 128 = v := Nat.mod_eq_of_lt h128
      rw [henc, hm, List.singleton_append, getVarint64Loop_cons,
        if_pos hshift]
      have hb : v % 256 = v := Nat.mod_eq_of_lt (by omega)
      rw [hb, if_neg (by omega)]
      have hsh : v <<< (7 * n) = v * 2 ^ (7 * n) := Nat.shiftLeft_eq v _
      have hvn : v * 2 ^ (7 * n) < 2 ^ 64 := by
        calc v * 2 ^ (7 * n) < 2 ^ (64 - 7 * n) * 2 ^ (7 * n) :=
              (Nat.mul_lt_mul_right (Nat.two_pow_pos _)).mpr hv
          _ = 2 ^ 64 := by rw [← Nat.pow_add]; congr 1; omega
      rw [hsh, Nat.mod_eq_of_lt hvn, ← hsh,
        lor_shiftLeft_eq_add _ _ _ hres, hsh]
      simp
    · -- continuation byte
      have henc : encodeVarint64 v
          = (v % 128 + 128) :: encodeVarint64 (v / 128) := by
        rw [encodeVarint64]; simp [h128]
      rw [henc, List.cons_append, getVarint64Loop_cons, if_pos hshift]
      have hb : (v % 128 + 128) % 256 = v % 128 + 128 :=
        Nat.mod_eq_of_lt (by omega)
      rw [hb, if_pos (by omega)]
      have hmm : (v % 128 + 128) % 128 = v % 128 := by omega
      rw [hmm]
      have hn8 : n + 1 ≤ 9 := by
        by_contra hc
        have h9 : n = 9 := by omega
        subst h9
        have : v < 2 ^ 1 := by norm_num at hv ⊢; omega
        omega
      have hdiv : v / 128 < 2 ^ (64 - 7 * (n + 1)) := by
        have h77 : (64 - 7 * (n + 1)) + 7 = 64 - 7 * n := by omega
        have hlt : v < 2 ^ (64 - 7 * (n + 1)) * 2 ^ 7 := by
          rw [← Nat.pow_add, h77]; exact hv
        norm_num at hlt; omega
      have hshl : (v % 128) <<< (7 * n) = (v % 128) * 2 ^ (7 * n) :=
        Nat.shiftLeft_eq _ _
      have hlt64 : (v % 128) * 2 ^ (7 * n) < 2 ^ 64 := by
        calc (v % 128) * 2 ^ (7 * n) < 2 ^ 7 * 2 ^ (7 * n) :=
              (Nat.mul_lt_mul_right (Nat.two_pow_pos _)).mpr (by omega)
          _ = 2 ^ (7 + 7 * n) := by rw [← Nat.pow_add]
          _ ≤ 2 ^ 64 := Nat.pow_le_pow_right (by norm_num) (by omega)
      have hresult' :
          result ||| ((v % 128) <<< (7 * n)) % 2 ^ 64
            = result + (v % 128) * 2 ^ (7 * n) := by
        rw [hshl, Nat.mod_eq_of_lt hlt64, ← hshl,
          lor_shiftLeft_eq_add _ _ _ hres, hshl]
      have hres' : result + (v % 128) * 2 ^ (7 * n) < 2 ^ (7 * (n + 1)) := by
        have h1 : (v % 128) * 2 ^ (7 * n) ≤ 127 * 2 ^ (7 * n) :=
          Nat.mul_le_mul_right _ (by omega)
        have h2 : 2 ^ (7 * (n + 1)) = 128 * 2 ^ (7 * n) := by
          rw [show 7 * (n + 1) = 7 + 7 * n by ring, Nat.pow_add]
        omega
      have h7n : 7 * n + 7 = 7 * (n + 1) := by ring
      rw [hresult', h7n,
        ih (v / 128) (Nat.div_lt_self (by omega) (by norm_num))
          (n + 1) (result + (v % 128) * 2 ^ (7 * n)) (consumed + 1) rest
          hdiv hn8 hres']
      have hval : result + v % 128 * 2 ^ (7 * n) + v / 128 * 2 ^ (7 * (n + 1))
          = result + v * 2 ^ (7 * n) := by
        have hp : 2 ^ (7 * (n + 1)) = 2 ^ (7 * n) * 128 := by
          rw [show 7 * (n + 1) = 7 * n + 7 by ring, Nat.pow_add]
        have hv128 : v % 128 + v / 128 * 128 = v := by omega
        calc result + v % 128 * 2 ^ (7 * n) + v / 128 * 2 ^ (7 * (n + 1))
            = result + (v % 128 + v / 128 * 128) * 2 ^ (7 * n) := by
              rw [hp]; ring
          _ = result + v * 2 ^ (7 * n) := by rw [hv128]
      rw [hval]
      congr 2
      simp only [List.length_cons]
      omega

/-- All bytes of a proper prefix of `encodeVarint64 v` have the high bit
set (they are continuation bytes). -/
theorem encodeVarint64_take_bytes (v : Nat) : ∀ (k : Nat),
    k < (encodeVarint64 v).length →
    ∀ b ∈ (encodeVarint64 v).take k, 128 ≤ b ∧ b < 256 := by
  induction v using Nat.strong_induction_on with
  | _ v ih =>
    intro k hk b hb
    by_cases h128 : v < 128
    · have henc : encodeVarint64 v = [v % 128] := by
        rw [encodeVarint64]; simp [h128]
      rw [henc] at hk hb
      simp only [List.length_singleton, Nat.lt_one_iff] at hk
      subst hk
      simp at hb
    · have henc : encodeVarint64 v
          = (v % 128 + 128) :: encodeVarint64 (v / 128) := by
        rw [encodeVarint64]; simp [h128]
      rw [henc] at hk hb
      match k with
      | 0 => simp at hb
      | k + 1 =>
        simp only [List.take_succ_cons, List.mem_cons] at hb
        rcases hb with hb | hb
        · subst hb; constructor <;> omega
        · exact ih (v / 128) (Nat.div_lt_self (by omega) (by norm_num)) k
            (by simp at hk; omega) b hb

/-- A list of continuation bytes never completes a varint decode. -/
theorem getVarint64Loop_all_high (bs : List Nat) :
    ∀ shift result consumed, (∀ b ∈ bs, 128 ≤ b ∧ b < 256) →
    getVarint64Loop bs shift result consumed = none := by
  induction bs with
  | nil => intro _ _ _ _; rfl
  | cons b rest ih =>
    intro shift result consumed hall
    have hb := hall b (by simp)
    have hbmod : b % 256 = b := Nat.mod_eq_of_lt hb.2
    rw [getVarint64Loop]
    split
    · simp only [hbmod]
      rw [if_pos hb.1]
      exact ih _ _ _ (fun x hx => hall x (by simp [hx]))
    · rfl

/-- **C8.** For every `v` in `[0, 2^64)`, decoding the varint encoding of
`v` returns `v` and consumes exactly the encoded bytes (even when more
bytes follow), and decoding any strict prefix (truncation) of the
encoding fails. -/
theorem varint64_roundtrip (v : Nat) (hv : v < 2 ^ 64) :
    (∀ rest : List Nat,
      getVarint64 (encodeVarint64 v ++ rest)
        = some (v, (encodeVarint64 v).length)) ∧
    (∀ k : Nat, k < (encodeVarint64 v).length →
      getVarint64 ((encodeVarint64 v).take k) = none) := by
  constructor
  · intro rest
    have := getVarint64Loop_encode v 0 0 0 rest (by simpa using hv)
      (by omega) (by norm_num)
    simpa [getVarint64] using this
  · intro k hk
    exact getVarint64Loop_all_high _ 0 0 0 (encodeVarint64_take_bytes v k hk)

/-- Witness for C8 at `v = 300`: the encoding is two bytes, decodes back
to 300, and its one-byte truncation fails. -/
theorem varint64_roundtrip_witness :
    300 < 2 ^ 64 ∧
    getVarint64 (encodeVarint64 300 ++ [7])
      = some (300, (encodeVarint64 300).length) ∧
    getVarint64 ((encodeVarint64 300).take 1) = none := by
  have henc : encodeVarint64 300 = [172, 2] := by
    rw [encodeVarint64]
    norm_num
    rw [encodeVarint64]
    norm_num
  exact ⟨by norm_num, (varint64_roundtrip 300 (by norm_num)).1 [7],
    (varint64_roundtrip 300 (by norm_num)).2 1 (by rw [henc]; norm_num)⟩

/-! ### Internal key format and comparator (include/dbformat.h, include/dbformat.cpp) -/

/-- `kMaxSequenceNumber` (dbformat.h): sequences are 56-bit. -/
def kMaxSequenceNumber : Nat := 2 ^ 56 - 1

/-- Value types (dbformat.h): `kTypeDeletion = 0`, `kTypeValue = 1`;
`kValueTypeForSeek = kTypeValue`. -/
def kTypeDeletion : Nat := 0

def kTypeValue : Nat := 1

def kValueTypeForSeek : Nat := kTypeValue

/-- `PackSequenceAndType` (dbformat.cpp): `(seq << 8) | t`. -/
def packSequenceAndType (seq t : Nat) : Nat := (seq <<< 8) ||| t

/-- `AppendInternalKey` (dbformat.cpp): `user_key ‖ fixed64(tag)`. -/
def mkInternalKey (ukey : List Nat) (seq t : Nat) : List Nat :=
  ukey ++ encodeFixed64 (packSequenceAndType seq t)

/-- `ExtractUserKey` (dbformat.cpp): all but the trailing 8 tag bytes. -/
def extractUserKey (k : List Nat) : List Nat := k.take (k.length - 8)

/-- Byte-string three-way comparison.  Translates `Slice::compare`
(include/slice.h): `memcmp` over the common prefix, then the shorter
slice orders first.  (`BytewiseComparator`'s definition file is not under
src/; per the spec the default comparator is exactly this lexicographic
byte order, delegating to the slice ordering.)  We return -1/0/1, which
carries the same ordering information as memcmp's sign. -/
def bytewiseCompare : List Nat → List Nat → Int
  | [], [] => 0
  | [], _ :: _ => -1
  | _ :: _, [] => 1
  | a :: as, b :: bs =>
    if a < b then -1 else if b < a then 1 else bytewiseCompare as bs

/-- `InternalKeyComparator::Compare` (dbformat.cpp lines 54-73):
ascending by user key, then descending by the decoded 8-byte tag. -/
def internalKeyCompare (a b : List Nat) : Int :=
  let r := bytewiseCompare (extractUserKey a) (extractUserKey b)
  if r ≠ 0 then r
  else
    let anum := decodeFixed64 (a.drop (a.length - 8))
    let bnum := decodeFixed64 (b.drop (b.length - 8))
    if bnum < anum then -1
    else if anum < bnum then 1
    else 0

theorem bytewiseCompare_eq_zero_iff (a b : List Nat) :
    bytewiseCompare a b = 0 ↔ a = b := by
  induction a generalizing b with
  | nil => cases b <;> simp [bytewiseCompare]
  | cons x as ih =>
    cases b with
    | nil => simp [bytewiseCompare]
    | cons y bs =>
      by_cases hxy : x < y
      · simp [bytewiseCompare, hxy]
        omega
      · by_cases hyx : y < x
        · simp [bytewiseCompare, hxy, hyx]
          omega
        · have : x = y := by omega
          subst this
          simp [bytewiseCompare, ih]

theorem bytewiseCompare_swap (a b : List Nat) :
    bytewiseCompare b a = -bytewiseCompare a b := by
  induction a generalizing b with
  | nil => cases b <;> simp [bytewiseCompare]
  | cons x as ih =>
    cases b with
    | nil => simp [bytewiseCompare]
    | cons y bs =>
      by_cases hxy : x < y
      · simp [bytewiseCompare, hxy, Nat.lt_asymm hxy]
      · by_cases hyx : y < x
        · simp [bytewiseCompare, hxy, hyx]
        · simp [bytewiseCompare, hxy, hyx, ih]

theorem packSequenceAndType_eq (seq t : Nat) (ht : t < 256) :
    packSequenceAndType seq t = seq * 256 + t := by
  rw [packSequenceAndType, Nat.lor_comm,
    lor_shiftLeft_eq_add t seq 8 (by omega), Nat.shiftLeft_eq]
  norm_num
  omega

theorem packSequenceAndType_lt (seq t : Nat)
    (hs : seq ≤ kMaxSequenceNumber) (ht : t < 256) :
    packSequenceAndType seq t < 2 ^ 64 := by
  rw [packSequenceAndType_eq seq t ht]
  rw [kMaxSequenceNumber] at hs
  norm_num at hs ⊢
  omega

theorem mkInternalKey_length (u : List Nat) (s t : Nat) :
    (mkInternalKey u s t).length = u.length + 8 := by
  simp [mkInternalKey, encodeFixed64, encodeFixedLE_length]

theorem extractUserKey_mk (u : List Nat) (s t : Nat) :
    extractUserKey (mkInternalKey u s t) = u := by
  rw [extractUserKey, mkInternalKey_length]
  simp only [Nat.add_sub_cancel, mkInternalKey]
  rw [List.take_append_of_le_length (le_refl _), List.take_length]

theorem dropTag_mk (u : List Nat) (s t : Nat) :
    (mkInternalKey u s t).drop ((mkInternalKey u s t).length - 8)
      = encodeFixed64 (packSequenceAndType s t) := by
  rw [mkInternalKey_length]
  simp only [Nat.add_sub_cancel, mkInternalKey]
  rw [List.drop_append_of_le_length (le_refl _), List.drop_length,
    List.nil_append]

/-- Reduction of `InternalKeyComparator::Compare` on well-formed keys. -/
theorem internalKeyCompare_mk (u1 u2 : List Nat) (s1 s2 t1 t2 : Nat)
    (hs1 : s1 ≤ kMaxSequenceNumber) (hs2 : s2 ≤ kMaxSequenceNumber)
    (ht1 : t1 < 256) (ht2 : t2 < 256) :
    internalKeyCompare (mkInternalKey u1 s1 t1) (mkInternalKey u2 s2 t2)
      = if bytewiseCompare u1 u2 ≠ 0 then bytewiseCompare u1 u2
        else if packSequenceAndType s2 t2 < packSequenceAndType s1 t1 then -1
        else if packSequenceAndType s1 t1 < packSequenceAndType s2 t2 then 1
        else 0 := by
  rw [internalKeyCompare]
  simp only [extractUserKey_mk, dropTag_mk,
    decodeFixed64_encodeFixed64 _ (packSequenceAndType_lt _ _ hs1 ht1),
    decodeFixed64_encodeFixed64 _ (packSequenceAndType_lt _ _ hs2 ht2)]

/-- **C7.** The internal-key comparator orders keys ascending by user key
and, for equal user keys, descending by the 8-byte tag `(seq<<8 | type)`:
the newer sequence comes first, and within one sequence a `Value` entry
(type 1) sorts before a `Deletion` entry (type 0). -/
theorem internal_key_ordering (u1 u2 : List Nat) (s1 s2 t1 t2 : Nat)
    (hs1 : s1 ≤ kMaxSequenceNumber) (hs2 : s2 ≤ kMaxSequenceNumber)
    (ht1 : t1 ≤ 1) (ht2 : t2 ≤ 1) :
    (bytewiseCompare u1 u2 ≠ 0 →
      internalKeyCompare (mkInternalKey u1 s1 t1) (mkInternalKey u2 s2 t2)
        = bytewiseCompare u1 u2) ∧
    (u1 = u2 →
      internalKeyCompare (mkInternalKey u1 s1 t1) (mkInternalKey u2 s2 t2)
        = if packSequenceAndType s2 t2 < packSequenceAndType s1 t1 then -1
          else if packSequenceAndType s1 t1 < packSequenceAndType s2 t2
          then 1 else 0) ∧
    (u1 = u2 → s2 < s1 →
      internalKeyCompare (mkInternalKey u1 s1 t1) (mkInternalKey u2 s2 t2)
        = -1) ∧
    (u1 = u2 → s1 = s2 → t1 = kTypeValue → t2 = kTypeDeletion →
      internalKeyCompare (mkInternalKey u1 s1 t1) (mkInternalKey u2 s2 t2)
        = -1) := by
  have hred := internalKeyCompare_mk u1 u2 s1 s2 t1 t2 hs1 hs2
    (by omega) (by omega)
  have hp1 := packSequenceAndType_eq s1 t1 (by omega)
  have hp2 := packSequenceAndType_eq s2 t2 (by omega)
  refine ⟨fun hne => ?_, fun hu => ?_, fun hu hs => ?_, fun hu hs h1 h2 => ?_⟩
  · rw [hred, if_pos hne]
  · have h0 : bytewiseCompare u1 u2 = 0 :=
      (bytewiseCompare_eq_zero_iff u1 u2).mpr hu
    rw [hred, h0]
    simp
  · have h0 : bytewiseCompare u1 u2 = 0 :=
      (bytewiseCompare_eq_zero_iff u1 u2).mpr hu
    rw [hred, h0]
    have : packSequenceAndType s2 t2 < packSequenceAndType s1 t1 := by
      rw [hp1, hp2]; omega
    simp [this]
  · have h0 : bytewiseCompare u1 u2 = 0 :=
      (bytewiseCompare_eq_zero_iff u1 u2).mpr hu
    rw [hred, h0]
    have : packSequenceAndType s2 t2 < packSequenceAndType s1 t1 := by
      rw [hp1, hp2, kTypeValue] at *
      rw [kTypeDeletion] at h2
      omega
    simp [this]

/-- Witness for C7 at concrete keys: user key `[97]`, sequences 3 > 2,
and within sequence 3 a `Value` before a `Deletion`. -/
theorem internal_key_ordering_witness :
    internalKeyCompare (mkInternalKey [97] 3 1) (mkInternalKey [97] 2 1)
        = -1 ∧
    internalKeyCompare (mkInternalKey [97] 3 1) (mkInternalKey [97] 3 0)
        = -1 ∧
    internalKeyCompare (mkInternalKey [97] 3 1) (mkInternalKey [98] 9 1)
        = bytewiseCompare [97] [98] := by
  refine ⟨(internal_key_ordering [97] [97] 3 2 1 1 (by norm_num [kMaxSequenceNumber])
      (by norm_num [kMaxSequenceNumber]) (by norm_num) (by norm_num)).2.2.1
      rfl (by norm_num),
    (internal_key_ordering [97] [97] 3 3 1 0 (by norm_num [kMaxSequenceNumber])
      (by norm_num [kMaxSequenceNumber]) (by norm_num) (by norm_num)).2.2.2
      rfl rfl rfl rfl,
    (internal_key_ordering [97] [98] 3 9 1 1 (by norm_num [kMaxSequenceNumber])
      (by norm_num [kMaxSequenceNumber]) (by norm_num) (by norm_num)).1
      (by decide)⟩

/-! ### File-name taxonomy (src/filename.cpp, util/logging.cpp) -/

/-- `FileType` (filename.h, as used by filename.cpp). -/
inductive FileType where
  | logFile
  | dbLockFile
  | tableFile
  | descriptorFile
  | currentFile
  | tempFile
  | infoLogFile
deriving DecidableEq, Repr

/-- `UINT64_MAX`, the overflow bound in `ConsumeDecimalNumber`. -/
def kMaxUint64 : Nat := 2 ^ 64 - 1

/-- ASCII digit test, `'0' ≤ c ≤ '9'` (48..57). -/
def isDigit (c : Nat) : Bool := decide (48 ≤ c ∧ c ≤ 57)

/-- Accumulating decimal value: what `ConsumeDecimalNumber`'s loop
computes starting from `v`. -/
def extendValue (v : Nat) (d : List Nat) : Nat :=
  d.foldl (fun a c => a * 10 + (c - 48)) v

/-- Decimal value of a digit string. -/
def decValue (d : List Nat) : Nat := extendValue 0 d

/-- Loop of `ConsumeDecimalNumber` (util/logging.cpp lines 47-77):
consume leading digits accumulating the value; fail on uint64 overflow
(`value > max/10 ||| (value = max/10 && ch > \'0\'+5)`) or when no digit
was consumed.  Returns the value and the unconsumed remainder. -/
def consumeDecGo : List Nat → Nat → Nat → Option (Nat × List Nat)
  | [], v, c => if c = 0 then none else some (v, [])
  | ch :: rest, v, c =>
    if ch < 48 ∨ 57 < ch then
      if c = 0 then none else some (v, ch :: rest)
    else if kMaxUint64 / 10 < v ∨ (v = kMaxUint64 / 10 ∧ 53 < ch) then none
    else consumeDecGo rest (v * 10 + (ch - 48)) (c + 1)

/-- `ConsumeDecimalNumber` (util/logging.cpp). -/
def consumeDecimalNumber (s : List Nat) : Option (Nat × List Nat) :=
  consumeDecGo s 0 0

/- ASCII byte lists for the literal names in `ParseFileName`. -/

/-- "CURRENT" -/
def nameCURRENT : List Nat := [67, 85, 82, 82, 69, 78, 84]

/-- "LOCK" -/
def nameLOCK : List Nat := [76, 79, 67, 75]

/-- "LOG" -/
def nameLOG : List Nat := [76, 79, 71]

/-- "LOG.old" -/
def nameLOGold : List Nat := [76, 79, 71, 46, 111, 108, 100]

/-- "MANIFEST-" -/
def nameMANIFESTdash : List Nat := [77, 65, 78, 73, 70, 69, 83, 84, 45]

/-- ".log" -/
def suffixLog : List Nat := [46, 108, 111, 103]

/-- ".sst" -/
def suffixSst : List Nat := [46, 115, 115, 116]

/-- ".ldb" -/
def suffixLdb : List Nat := [46, 108, 100, 98]

/-- ".dbtmp" -/
def suffixDbtmp : List Nat := [46, 100, 98, 116, 109, 112]

/-- `ParseFileName` (src/filename.cpp lines 71-131). -/
def parseFileName (s : List Nat) : Option (Nat × FileType) :=
  if s = nameCURRENT then some (0, FileType.currentFile)
  else if s = nameLOCK then some (0, FileType.dbLockFile)
  else if s = nameLOG ∨ s = nameLOGold then some (0, FileType.infoLogFile)
  else if s.take 9 = nameMANIFESTdash then
    match consumeDecimalNumber (s.drop 9) with
    | none => none
    | some (num, rest) =>
      if rest = [] then some (num, FileType.descriptorFile) else none
  else
    match consumeDecimalNumber s with
    | none => none
    | some (num, rest) =>
      if rest = suffixLog then some (num, FileType.logFile)
      else if rest = suffixSst ∨ rest = suffixLdb then
        some (num, FileType.tableFile)
      else if rest = suffixDbtmp then some (num, FileType.tempFile)
      else none

/-- The names `ParseFileName` actually recognises (this is the amended
grammar: the claimed set plus `<n>.dbtmp` temp files). -/
inductive AcceptedName : List Nat → Nat → FileType → Prop where
  | current : AcceptedName nameCURRENT 0 FileType.currentFile
  | lock : AcceptedName nameLOCK 0 FileType.dbLockFile
  | infoLog : AcceptedName nameLOG 0 FileType.infoLogFile
  | infoLogOld : AcceptedName nameLOGold 0 FileType.infoLogFile
  | descriptor (d : List Nat) : d ≠ [] → (∀ x ∈ d, isDigit x = true) →
      decValue d ≤ kMaxUint64 →
      AcceptedName (nameMANIFESTdash ++ d) (decValue d) FileType.descriptorFile
  | logFile (d : List Nat) : d ≠ [] → (∀ x ∈ d, isDigit x = true) →
      decValue d ≤ kMaxUint64 →
      AcceptedName (d ++ suffixLog) (decValue d) FileType.logFile
  | tableSst (d : List Nat) : d ≠ [] → (∀ x ∈ d, isDigit x = true) →
      decValue d ≤ kMaxUint64 →
      AcceptedName (d ++ suffixSst) (decValue d) FileType.tableFile
  | tableLdb (d : List Nat) : d ≠ [] → (∀ x ∈ d, isDigit x = true) →
      decValue d ≤ kMaxUint64 →
      AcceptedName (d ++ suffixLdb) (decValue d) FileType.tableFile
  | tempFile (d : List Nat) : d ≠ [] → (∀ x ∈ d, isDigit x = true) →
      decValue d ≤ kMaxUint64 →
      AcceptedName (d ++ suffixDbtmp) (decValue d) FileType.tempFile

theorem extendValue_cons (v c : Nat) (d : List Nat) :
    extendValue v (c :: d) = extendValue (v * 10 + (c - 48)) d := rfl

theorem le_extendValue (v : Nat) (d : List Nat) : v ≤ extendValue v d := by
  induction d generalizing v with
  | nil => exact le_refl v
  | cons c d ih =>
    rw [extendValue_cons]
    exact le_trans (by omega) (ih (v * 10 + (c - 48)))

theorem kMaxUint64_eq : kMaxUint64 = 18446744073709551615 := by
  norm_num [kMaxUint64]

theorem consumeDecGo_sound : ∀ (s : List Nat) (v c n : Nat)
    (rest : List Nat), v ≤ kMaxUint64 →
    consumeDecGo s v c = some (n, rest) →
    ∃ d, s = d ++ rest ∧ (∀ x ∈ d, isDigit x = true) ∧
      extendValue v d = n ∧ n ≤ kMaxUint64 ∧ (c = 0 → d ≠ []) ∧
      (rest = [] ∨ ∃ r rs, rest = r :: rs ∧ isDigit r = false) := by
  intro s
  induction s with
  | nil =>
    intro v c n rest hv h
    rw [consumeDecGo] at h
    split at h
    · exact absurd h (by simp)
    · rename_i hc
      simp only [Option.some.injEq, Prod.mk.injEq] at h
      obtain ⟨hn, hrest⟩ := h
      subst hn
      exact ⟨[], by simp [← hrest], by simp, rfl, hv,
        fun h0 => absurd h0 hc, Or.inl hrest.symm⟩
  | cons ch s ih =>
    intro v c n rest hv h
    rw [consumeDecGo] at h
    split at h
    · -- non-digit head: terminates here
      rename_i hnd
      split at h
      · exact absurd h (by simp)
      · rename_i hc
        simp only [Option.some.injEq, Prod.mk.injEq] at h
        obtain ⟨hn, hrest⟩ := h
        subst hn
        refine ⟨[], by simp [← hrest], by simp, rfl, hv,
          fun h0 => absurd h0 hc,
          Or.inr ⟨ch, s, hrest.symm, by simp [isDigit]; omega⟩⟩
    · rename_i hnd
      split at h
      · exact absurd h (by simp)
      · rename_i hof
        have hv' : v * 10 + (ch - 48) ≤ kMaxUint64 := by
          simp only [kMaxUint64_eq] at hv hof ⊢
          omega
        obtain ⟨d, hsd, hdig, hval, hn, _, hrest⟩ :=
          ih (v * 10 + (ch - 48)) (c + 1) n rest hv' h
        refine ⟨ch :: d, by simp [hsd], ?_, ?_, hn, fun _ => by simp, hrest⟩
        · intro x hx
          rcases List.mem_cons.mp hx with hx | hx
          · subst hx; simp [isDigit]; omega
          · exact hdig x hx
        · rw [extendValue_cons]; exact hval
    
theorem consumeDecGo_complete : ∀ (d : List Nat) (v c : Nat)
    (rest : List Nat), (∀ x ∈ d, isDigit x = true) →
    (rest = [] ∨ ∃ r rs, rest = r :: rs ∧ isDigit r = false) →
    extendValue v d ≤ kMaxUint64 →
    (d ≠ [] ∨ c ≠ 0) →
    consumeDecGo (d ++ rest) v c = some (extendValue v d, rest) := by
  intro d
  induction d with
  | nil =>
    intro v c rest _ hrest hle hne
    have hc : c ≠ 0 := by
      rcases hne with h | h
      · exact absurd rfl h
      · exact h
    rcases hrest with hrest | ⟨r, rs, hrest, hr⟩
    · subst hrest
      simp [consumeDecGo, hc, extendValue]
    · subst hrest
      have : r < 48 ∨ 57 < r := by simp [isDigit] at hr; omega
      simp [consumeDecGo, this, hc, extendValue]
  | cons ch d ih =>
    intro v c rest hdig hrest hle hne
    have hch : isDigit ch = true := hdig ch (by simp)
    have hch' : ¬ (ch < 48 ∨ 57 < ch) := by simp [isDigit] at hch; omega
    rw [extendValue_cons] at hle ⊢
    have hstep : v * 10 + (ch - 48) ≤ kMaxUint64 :=
      le_trans (le_extendValue _ d) hle
    have hof : ¬ (kMaxUint64 / 10 < v ∨ (v = kMaxUint64 / 10 ∧ 53 < ch)) := by
      simp only [kMaxUint64_eq] at hstep ⊢
      simp only [isDigit, decide_eq_true_eq] at hch
      omega
    rw [List.cons_append, consumeDecGo, if_neg hch', if_neg hof]
    exact ih (v * 10 + (ch - 48)) (c + 1) rest
      (fun x hx => hdig x (by simp [hx])) hrest hle
      (Or.inr (by omega))

theorem consumeDecimalNumber_complete (d rest : List Nat)
    (hd : d ≠ []) (hdig : ∀ x ∈ d, isDigit x = true)
    (hrest : rest = [] ∨ ∃ r rs, rest = r :: rs ∧ isDigit r = false)
    (hle : decValue d ≤ kMaxUint64) :
    consumeDecimalNumber (d ++ rest) = some (decValue d, rest) :=
  consumeDecGo_complete d 0 0 rest hdig hrest hle (Or.inl hd)

/-- A digit-headed name is none of the literal names and does not start
with "MANIFEST-". -/
theorem digitHead_not_literal (c : Nat) (r : List Nat)
    (hc : isDigit c = true) :
    (c :: r) ≠ nameCURRENT ∧ (c :: r) ≠ nameLOCK ∧ (c :: r) ≠ nameLOG ∧
    (c :: r) ≠ nameLOGold ∧ (c :: r).take 9 ≠ nameMANIFESTdash := by
  simp only [isDigit, decide_eq_true_eq] at hc
  refine ⟨?_, ?_, ?_, ?_, ?_⟩ <;> intro h
  · rw [nameCURRENT] at h; simp at h; omega
  · rw [nameLOCK] at h; simp at h; omega
  · rw [nameLOG] at h; simp at h; omega
  · rw [nameLOGold] at h; simp at h; omega
  · rw [show (9 : Nat) = 8 + 1 from rfl, List.take_succ_cons,
      nameMANIFESTdash] at h
    simp at h; omega

/-- The four suffixes are dot-headed, hence not digit-headed. -/
theorem suffix_not_digit_headed :
    ∀ sfx ∈ [suffixLog, suffixSst, suffixLdb, suffixDbtmp],
      ∃ r rs, sfx = r :: rs ∧ isDigit r = false := by
  intro sfx hsfx
  fin_cases hsfx <;> exact ⟨46, _, rfl, by decide⟩

/-- **C4 (amended).** `ParseFileName` accepts exactly the names
`CURRENT`, `LOCK`, `LOG`, `LOG.old`, `MANIFEST-<n>`, `<n>.log`,
`<n>.ldb`, `<n>.sst` and additionally `<n>.dbtmp` (`n` a decimal number
fitting in an unsigned 64-bit integer), returning the encoded number and
file type, and rejects every other name. -/
theorem parseFileName_characterization (s : List Nat) (n : Nat)
    (ty : FileType) :
    parseFileName s = some (n, ty) ↔ AcceptedName s n ty := by
  constructor
  · intro h
    rw [parseFileName] at h
    split at h
    · rename_i h1
      simp only [Option.some.injEq, Prod.mk.injEq] at h
      obtain ⟨hn, hty⟩ := h
      subst hn; subst hty; subst h1
      exact AcceptedName.current
    · split at h
      · rename_i h2
        simp only [Option.some.injEq, Prod.mk.injEq] at h
        obtain ⟨hn, hty⟩ := h
        subst hn; subst hty; subst h2
        exact AcceptedName.lock
      · split at h
        · rename_i h3
          simp only [Option.some.injEq, Prod.mk.injEq] at h
          obtain ⟨hn, hty⟩ := h
          subst hn; subst hty
          rcases h3 with h3 | h3 <;> subst h3
          · exact AcceptedName.infoLog
          · exact AcceptedName.infoLogOld
        · split at h
          · -- MANIFEST- branch
            rename_i h4
            split at h
            · exact absurd h (by simp)
            · rename_i num rest hcd
              split at h
              · rename_i h5
                simp only [Option.some.injEq, Prod.mk.injEq] at h
                obtain ⟨hn, hty⟩ := h
                subst hn; subst hty; subst h5
                obtain ⟨d, hsd, hdig, hval, hle, hne, _⟩ :=
                  consumeDecGo_sound (s.drop 9) 0 0 num [] (by simp) hcd
                rw [List.append_nil] at hsd
                have hs : s = nameMANIFESTdash ++ d := by
                  conv_lhs => rw [← List.take_append_drop 9 s]
                  rw [h4, hsd]
                rw [hs, show num = decValue d from hval.symm]
                exact AcceptedName.descriptor d (hne rfl) hdig
                  (by rw [decValue, hval]; exact hle)
              · exact absurd h (by simp)
          · -- numeric-suffix branch
            split at h
            · exact absurd h (by simp)
            · rename_i num rest hcd
              obtain ⟨d, hsd, hdig, hval, hle, hne, _⟩ :=
                consumeDecGo_sound s 0 0 num rest (by simp) hcd
              have hdv : decValue d = num := hval
              split at h
              · rename_i h5
                simp only [Option.some.injEq, Prod.mk.injEq] at h
                obtain ⟨hn, hty⟩ := h
                subst hn; subst hty; subst h5
                rw [hsd, ← hdv]
                exact AcceptedName.logFile d (hne rfl) hdig (hdv ▸ hle)
              · split at h
                · rename_i h6
                  simp only [Option.some.injEq, Prod.mk.injEq] at h
                  obtain ⟨hn, hty⟩ := h
                  subst hn; subst hty
                  rcases h6 with h6 | h6 <;> subst h6 <;> rw [hsd, ← hdv]
                  · exact AcceptedName.tableSst d (hne rfl) hdig (hdv ▸ hle)
                  · exact AcceptedName.tableLdb d (hne rfl) hdig (hdv ▸ hle)
                · split at h
                  · rename_i h7
                    simp only [Option.some.injEq, Prod.mk.injEq] at h
                    obtain ⟨hn, hty⟩ := h
                    subst hn; subst hty; subst h7
                    rw [hsd, ← hdv]
                    exact AcceptedName.tempFile d (hne rfl) hdig (hdv ▸ hle)
                  · exact absurd h (by simp)
  · intro h
    cases h with
    | current => decide
    | lock => decide
    | infoLog => decide
    | infoLogOld => decide
    | descriptor d hd hdig hle =>
      have hlen : (nameMANIFESTdash ++ d).length = 9 + d.length := by
        simp [nameMANIFESTdash]
        omega
      have hdlen : 1 ≤ d.length := by
        cases d with
        | nil => exact absurd rfl hd
        | cons _ _ => simp
      have q1 : nameMANIFESTdash ++ d ≠ nameCURRENT := by
        intro hq
        have hq2 := congrArg List.length hq
        rw [hlen] at hq2; simp [nameCURRENT] at hq2; omega
      have q2 : nameMANIFESTdash ++ d ≠ nameLOCK := by
        intro hq
        have hq2 := congrArg List.length hq
        rw [hlen] at hq2; simp [nameLOCK] at hq2; omega
      have q3 : ¬ (nameMANIFESTdash ++ d = nameLOG ∨
          nameMANIFESTdash ++ d = nameLOGold) := by
        rintro (hq | hq) <;> have hq2 := congrArg List.length hq
        · rw [hlen] at hq2; simp [nameLOG] at hq2; omega
        · rw [hlen] at hq2; simp [nameLOGold] at hq2; omega
      have q4 : (nameMANIFESTdash ++ d).take 9 = nameMANIFESTdash := by
        rw [show (9 : Nat) = nameMANIFESTdash.length from rfl, List.take_left]
      rw [parseFileName, if_neg q1, if_neg q2, if_neg q3, if_pos q4,
        show (9 : Nat) = nameMANIFESTdash.length from rfl, List.drop_left]
      have hcd : consumeDecimalNumber (d ++ ([] : List Nat))
          = some (decValue d, []) :=
        consumeDecimalNumber_complete d [] hd hdig (Or.inl rfl)
          (by rwa [decValue])
      rw [List.append_nil] at hcd
      rw [hcd]
      simp
    | logFile d hd hdig hle =>
      cases d with
      | nil => exact absurd rfl hd
      | cons c r =>
        have hc := hdig c (by simp)
        obtain ⟨n1, n2, n3, n4, n5⟩ :=
          digitHead_not_literal c (r ++ suffixLog) hc
        have hcd : consumeDecimalNumber ((c :: r) ++ suffixLog)
            = some (decValue (c :: r), suffixLog) :=
          consumeDecimalNumber_complete (c :: r) suffixLog hd hdig
            (Or.inr (suffix_not_digit_headed suffixLog (by simp))) hle
        rw [parseFileName, List.cons_append, if_neg n1, if_neg n2,
          if_neg (by tauto), if_neg n5, ← List.cons_append, hcd]
        simp
    | tableSst d hd hdig hle =>
      cases d with
      | nil => exact absurd rfl hd
      | cons c r =>
        have hc := hdig c (by simp)
        obtain ⟨n1, n2, n3, n4, n5⟩ :=
          digitHead_not_literal c (r ++ suffixSst) hc
        have hcd : consumeDecimalNumber ((c :: r) ++ suffixSst)
            = some (decValue (c :: r), suffixSst) :=
          consumeDecimalNumber_complete (c :: r) suffixSst hd hdig
            (Or.inr (suffix_not_digit_headed suffixSst (by simp))) hle
        rw [parseFileName, List.cons_append, if_neg n1, if_neg n2,
          if_neg (by tauto), if_neg n5, ← List.cons_append, hcd]
        simp [suffixSst, suffixLog]
    | tableLdb d hd hdig hle =>
      cases d with
      | nil => exact absurd rfl hd
      | cons c r =>
        have hc := hdig c (by simp)
        obtain ⟨n1, n2, n3, n4, n5⟩ :=
          digitHead_not_literal c (r ++ suffixLdb) hc
        have hcd : consumeDecimalNumber ((c :: r) ++ suffixLdb)
            = some (decValue (c :: r), suffixLdb) :=
          consumeDecimalNumber_complete (c :: r) suffixLdb hd hdig
            (Or.inr (suffix_not_digit_headed suffixLdb (by simp))) hle
        rw [parseFileName, List.cons_append, if_neg n1, if_neg n2,
          if_neg (by tauto), if_neg n5, ← List.cons_append, hcd]
        simp [suffixLdb, suffixLog, suffixSst]
    | tempFile d hd hdig hle =>
      cases d with
      | nil => exact absurd rfl hd
      | cons c r =>
        have hc := hdig c (by simp)
        obtain ⟨n1, n2, n3, n4, n5⟩ :=
          digitHead_not_literal c (r ++ suffixDbtmp) hc
        have hcd : consumeDecimalNumber ((c :: r) ++ suffixDbtmp)
            = some (decValue (c :: r), suffixDbtmp) :=
          consumeDecimalNumber_complete (c :: r) suffixDbtmp hd hdig
            (Or.inr (suffix_not_digit_headed suffixDbtmp (by simp))) hle
        rw [parseFileName, List.cons_append, if_neg n1, if_neg n2,
          if_neg (by tauto), if_neg n5, ← List.cons_append, hcd]
        simp [suffixDbtmp, suffixLog, suffixSst, suffixLdb]

/-- **C4 (counterexample).** The name "1.dbtmp" is outside the set the
claim says is accepted exactly (it is none of CURRENT, LOCK, LOG,
LOG.old, MANIFEST-n, n.log, n.ldb, n.sst), yet `ParseFileName` accepts
it as a temp file with number 1: the parser does not reject every name
other than the claimed eight. -/
theorem parseFileName_accepts_dbtmp :
    parseFileName [49, 46, 100, 98, 116, 109, 112]
        = some (1, FileType.tempFile) ∧
    (∀ n ty, AcceptedName [49, 46, 100, 98, 116, 109, 112] n ty →
      ty = FileType.tempFile) := by
  constructor
  · decide
  · intro n ty h
    generalize hname : [49, 46, 100, 98, 116, 109, 112] = name at h
    cases h with
    | current => rw [nameCURRENT] at hname; simp at hname
    | lock => rw [nameLOCK] at hname; simp at hname
    | infoLog => rw [nameLOG] at hname; simp at hname
    | infoLogOld => rw [nameLOGold] at hname; simp at hname
    | descriptor d hd hdig hle =>
      have hlen := congrArg List.length hname
      simp only [List.length_append, nameMANIFESTdash, List.length_cons,
        List.length_nil] at hlen
      omega
    | logFile d hd hdig hle =>
      have hlen := congrArg List.length hname
      simp only [List.length_append, suffixLog, List.length_cons,
        List.length_nil] at hlen
      have hd3 : d.length = 3 := by omega
      have hdrop : List.drop 3 d = [] :=
        List.length_eq_zero.mp (by simp [hd3])
      have hthis := congrArg (List.drop 3) hname
      rw [List.drop_append_of_le_length (by omega), hdrop] at hthis
      simp [suffixLog] at hthis
    | tableSst d hd hdig hle =>
      have hlen := congrArg List.length hname
      simp only [List.length_append, suffixSst, List.length_cons,
        List.length_nil] at hlen
      have hd3 : d.length = 3 := by omega
      have hdrop : List.drop 3 d = [] :=
        List.length_eq_zero.mp (by simp [hd3])
      have hthis := congrArg (List.drop 3) hname
      rw [List.drop_append_of_le_length (by omega), hdrop] at hthis
      simp [suffixSst] at hthis
    | tableLdb d hd hdig hle =>
      have hlen := congrArg List.length hname
      simp only [List.length_append, suffixLdb, List.length_cons,
        List.length_nil] at hlen
      have hd3 : d.length = 3 := by omega
      have hdrop : List.drop 3 d = [] :=
        List.length_eq_zero.mp (by simp [hd3])
      have hthis := congrArg (List.drop 3) hname
      rw [List.drop_append_of_le_length (by omega), hdrop] at hthis
      simp [suffixLdb] at hthis
    | tempFile d hd hdig hle => rfl

/-! ### Bloom filter policy (util/bloom.cpp)

`BloomFilterPolicy` computes `k_ = static_cast<size_t>(bits_per_key * 0.69)`,
a truncation of an IEEE-double product.  We model it as the rational
truncation `bits_per_key * 69 / 100`, which agrees with the double
computation for every natural `bits_per_key` after the `[1,30]` clamp:
for `bits_per_key ≤ 43` the exact value `0.69·b` is at least `0.01` away
from any integer (since `69·b` is not a multiple of 100 for `0 < b < 100`)
while the double product is within `10⁻¹³` of it, so the truncations
agree; for `bits_per_key ≥ 44` both truncations are `≥ 30` and clamp
to 30; at `b = 0` both are 0 and clamp to 1.

`BloomHash` delegates to `Hash` (util/hash.h), whose definition file is
not under src/; the filter layout does not depend on it, so the hash is
taken as a parameter. -/

/-- `k_` of `BloomFilterPolicy` (util/bloom.cpp lines 16-25): truncate
`bits_per_key × 0.69`, clamp to `[1, 30]`. -/
def bloomK (bitsPerKey : Nat) : Nat :=
  let k := bitsPerKey * 69 / 100
  if k < 1 then 1 else if k > 30 then 30 else k

/-- `delta = (h >> 17) | (h << 15)` in 32-bit arithmetic (rotate right
by 17) from `CreateFilter` / `KeyMayMatch`. -/
def rotRight17 (h : Nat) : Nat := ((h >>> 17) ||| (h <<< 15)) % 2 ^ 32

/-- `array[bitpos/8] |= (1 << (bitpos % 8))` on the filter byte array. -/
def setBit (a : List Nat) (bitpos : Nat) : List Nat :=
  a.set (bitpos / 8) (a.getD (bitpos / 8) 0 ||| (1 <<< (bitpos % 8)))

/-- The inner probe loop of `CreateFilter`: `k` iterations of
`bitpos = h % bits; h += delta` (32-bit `h`).  Returns the bit
positions touched. -/
def bloomProbeLoop : Nat → Nat → Nat → Nat → List Nat
  | 0, _, _, _ => []
  | j + 1, h, delta, bits =>
    (h % bits) :: bloomProbeLoop j ((h + delta) % 2 ^ 32) delta bits

/-- Per-key probe of `CreateFilter` (util/bloom.cpp lines 50-61). -/
def bloomAddKey (hash : List Nat → Nat) (bits k : Nat) (a : List Nat)
    (key : List Nat) : List Nat :=
  let h := hash key % 2 ^ 32
  (bloomProbeLoop k h (rotRight17 h) bits).foldl setBit a

/-- `BloomFilterPolicy::CreateFilter` (util/bloom.cpp lines 29-62).
The C++ writes the `k_` byte first and then sets bits in the preceding
`bytes`-sized region; since every `bitpos / 8 < bytes`, building the bit
region separately and appending the `k_` byte is the same byte string. -/
def createFilter (bitsPerKey : Nat) (hash : List Nat → Nat)
    (keys : List (List Nat)) (dst : List Nat) : List Nat :=
  let bits0 := keys.length * bitsPerKey
  let bits1 := if bits0 < 64 then 64 else bits0
  let bytes := (bits1 + 7) / 8
  let bits := bytes * 8
  let arr := keys.foldl (bloomAddKey hash bits (bloomK bitsPerKey))
    (List.replicate bytes 0)
  dst ++ arr ++ [bloomK bitsPerKey]

theorem bloomProbeLoop_length (j h delta bits : Nat) :
    (bloomProbeLoop j h delta bits).length = j := by
  induction j generalizing h with
  | zero => rfl
  | succ j ih => simp [bloomProbeLoop, ih]

/-- **C5 (counterexample).** At `bits_per_key = 10` the code computes
`k = 6` — the truncation of `6.9` — while the claim\'s formula
`round(10 × 0.69)` gives 7. -/
theorem bloomK_not_round :
    bloomK 10 = 6 ∧ round ((10 * 69 : ℚ) / 100) = 7 ∧ (6 : Nat) ≠ 7 := by
  refine ⟨by decide, ?_, by decide⟩
  rw [round_eq, show (10 * 69 : ℚ) / 100 + 1 / 2 = 37 / 5 by norm_num]
  rw [Int.floor_eq_iff]
  norm_num

/-- **C5 (amended).** The default Bloom filter policy uses
`k = ⌊bits_per_key × 0.69⌋` (truncation, not rounding) clamped to
`[1, 30]` hash probes per key, and the trailing byte of every filter
produced by `create_filter` stores `k`. -/
theorem bloom_filter_spec (bitsPerKey : Nat) (hash : List Nat → Nat)
    (keys : List (List Nat)) (dst : List Nat) :
    bloomK bitsPerKey = min 30 (max 1 (bitsPerKey * 69 / 100)) ∧
    1 ≤ bloomK bitsPerKey ∧ bloomK bitsPerKey ≤ 30 ∧
    (createFilter bitsPerKey hash keys dst).getLast?
      = some (bloomK bitsPerKey) ∧
    (∀ h delta bits, (bloomProbeLoop (bloomK bitsPerKey) h delta bits).length
      = bloomK bitsPerKey) := by
  refine ⟨?_, ?_, ?_, ?_, fun h delta bits => bloomProbeLoop_length _ _ _ _⟩
  · simp only [bloomK]
    split_ifs <;> omega
  · simp only [bloomK]
    split_ifs <;> omega
  · simp only [bloomK]
    split_ifs <;> omega
  · rw [createFilter, List.getLast?_concat]

/-! ### WAL writer (src/log_writer.cpp, include/log_format.h) -/

/-- `kBlockSize` (log_format.h): 32 KiB. -/
def kBlockSize : Nat := 32768

/-- `kHeaderSize` (log_format.h): checksum(4) + length(2) + type(1). -/
def kHeaderSize : Nat := 7

/-- Record types emitted by the writer (log_format.h `RecordType`;
`kZeroType` is never written by `AddRecord`). -/
inductive RecordType where
  | full
  | first
  | middle
  | last
deriving DecidableEq, Repr

/-- What `AddRecord` writes to the file, abstracted per emission: a
physical record (whose 7-byte header carries crc/length/type and is
followed by the payload) or the zero padding of a block trailer. -/
inductive LogChunk where
  | record (ty : RecordType) (payload : List Nat)
  | pad (bytes : List Nat)
deriving DecidableEq, Repr

/-- `log::Writer::AddRecord` (src/log_writer.cpp lines 44-101).
One iteration of the do-while loop per call; `fuel` bounds the
iteration count (the loop consumes at least one payload byte in any two
consecutive iterations, so `2·|data| + 2` iterations always suffice;
`addRecord` below passes more).  State is `block_offset_`; the chunks
are emitted in order. -/
def addRecordLoop : Nat → Nat → List Nat → Bool → Nat × List LogChunk
  | 0, off, _, _ => (off, [])
  | fuel + 1, off, data, isBegin =>
    let leftover := kBlockSize - off
    let needNew := leftover < kHeaderSize
    let off1 := if needNew then 0 else off
    let pads : List LogChunk :=
      if needNew ∧ 0 < leftover then [LogChunk.pad (List.replicate leftover 0)]
      else []
    let avail := kBlockSize - off1 - kHeaderSize
    let fragLen := min data.length avail
    let isEnd := data.length ≤ avail
    let ty :=
      if isBegin ∧ isEnd then RecordType.full
      else if isBegin then RecordType.first
      else if isEnd then RecordType.last
      else RecordType.middle
    let chunk := LogChunk.record ty (data.take fragLen)
    let off2 := off1 + kHeaderSize + fragLen
    let rest := data.drop fragLen
    if rest.length = 0 then (off2, pads ++ [chunk])
    else
      let next := addRecordLoop fuel off2 rest false
      (next.1, pads ++ chunk :: next.2)

/-- `AddRecord` on a writer whose `block_offset_` is `off`: returns the
new offset and the emitted chunks. -/
def addRecord (off : Nat) (data : List Nat) : Nat × List LogChunk :=
  addRecordLoop (2 * data.length + 3) off data true

/-- The physical records among the emitted chunks, in order. -/
def chunkRecords (cs : List LogChunk) : List (RecordType × List Nat) :=
  cs.filterMap fun c => match c with
    | .record t p => some (t, p)
    | .pad _ => none

/-- The padding runs among the emitted chunks. -/
def chunkPads (cs : List LogChunk) : List (List Nat) :=
  cs.filterMap fun c => match c with
    | .record _ _ => none
    | .pad p => some p

/-- The record-type sequence of a logical record split into `n`
fragments: `Full` when unsplit, else `First, Middle*, Last`
(`isBegin = false` gives the continuation shape). -/
def typePattern (isBegin : Bool) (n : Nat) : List RecordType :=
  if isBegin then
    if n ≤ 1 then [RecordType.full]
    else RecordType.first ::
      (List.replicate (n - 2) RecordType.middle ++ [RecordType.last])
  else List.replicate (n - 1) RecordType.middle ++ [RecordType.last]

theorem chunkRecords_append (a b : List LogChunk) :
    chunkRecords (a ++ b) = chunkRecords a ++ chunkRecords b := by
  simp [chunkRecords, List.filterMap_append]

theorem chunkPads_append (a b : List LogChunk) :
    chunkPads (a ++ b) = chunkPads a ++ chunkPads b := by
  simp [chunkPads, List.filterMap_append]

theorem addRecordLoop_step_noswitch_end (fuel off : Nat) (data : List Nat)
    (isBegin : Bool) (hNew : ¬ (kBlockSize - off < kHeaderSize))
    (hEnd : data.length ≤ kBlockSize - off - kHeaderSize) :
    addRecordLoop (fuel + 1) off data isBegin
      = (off + kHeaderSize + data.length,
         [LogChunk.record (if isBegin then RecordType.full else RecordType.last)
            data]) := by
  have hfrag : min data.length (kBlockSize - off - kHeaderSize) = data.length :=
    Nat.min_eq_left hEnd
  cases isBegin <;>
    simp [addRecordLoop, hNew, hfrag, hEnd]

theorem addRecordLoop_step_noswitch_cont (fuel off : Nat) (data : List Nat)
    (isBegin : Bool) (hNew : ¬ (kBlockSize - off < kHeaderSize))
    (hEnd : ¬ data.length ≤ kBlockSize - off - kHeaderSize) :
    addRecordLoop (fuel + 1) off data isBegin
      = ((addRecordLoop fuel kBlockSize
            (data.drop (kBlockSize - off - kHeaderSize)) false).1,
         LogChunk.record (if isBegin then RecordType.first else RecordType.middle)
             (data.take (kBlockSize - off - kHeaderSize)) ::
           (addRecordLoop fuel kBlockSize
             (data.drop (kBlockSize - off - kHeaderSize)) false).2) := by
  have hfrag : min data.length (kBlockSize - off - kHeaderSize)
      = kBlockSize - off - kHeaderSize := Nat.min_eq_right (by omega)
  have hoff2 : off + kHeaderSize + (kBlockSize - off - kHeaderSize)
      = kBlockSize := by
    have hBS : kBlockSize = 32768 := rfl
    have hHS : kHeaderSize = 7 := rfl
    omega
  have hdropne : ¬ (data.length - (kBlockSize - off - kHeaderSize) = 0) := by
    omega
  cases isBegin <;>
    simp [addRecordLoop, hNew, hfrag, hEnd, hoff2, hdropne]

theorem addRecordLoop_step_switch_end (fuel off : Nat) (data : List Nat)
    (isBegin : Bool) (hNew : kBlockSize - off < kHeaderSize)
    (hEnd : data.length ≤ kBlockSize - kHeaderSize) :
    addRecordLoop (fuel + 1) off data isBegin
      = (kHeaderSize + data.length,
         (if 0 < kBlockSize - off
          then [LogChunk.pad (List.replicate (kBlockSize - off) 0)] else [])
           ++ [LogChunk.record
                (if isBegin then RecordType.full else RecordType.last) data]) := by
  have hfrag : min data.length (kBlockSize - kHeaderSize) = data.length :=
    Nat.min_eq_left hEnd
  cases isBegin <;>
    by_cases hp : 0 < kBlockSize - off <;>
      simp [addRecordLoop, hNew, hfrag, hEnd, hp]

theorem addRecordLoop_step_switch_cont (fuel off : Nat) (data : List Nat)
    (isBegin : Bool) (hNew : kBlockSize - off < kHeaderSize)
    (hEnd : ¬ data.length ≤ kBlockSize - kHeaderSize) :
    addRecordLoop (fuel + 1) off data isBegin
      = ((addRecordLoop fuel kBlockSize
            (data.drop (kBlockSize - kHeaderSize)) false).1,
         (if 0 < kBlockSize - off
          then [LogChunk.pad (List.replicate (kBlockSize - off) 0)] else [])
           ++ LogChunk.record
               (if isBegin then RecordType.first else RecordType.middle)
               (data.take (kBlockSize - kHeaderSize)) ::
             (addRecordLoop fuel kBlockSize
               (data.drop (kBlockSize - kHeaderSize)) false).2) := by
  have hfrag : min data.length (kBlockSize - kHeaderSize)
      = kBlockSize - kHeaderSize := Nat.min_eq_right (by omega)
  have hoff2 : kHeaderSize + (kBlockSize - kHeaderSize) = kBlockSize := by
    have hBS : kBlockSize = 32768 := rfl
    have hHS : kHeaderSize = 7 := rfl
    omega
  have hdropne : ¬ (data.length - (kBlockSize - kHeaderSize) = 0) := by
    omega
  cases isBegin <;>
    by_cases hp : 0 < kBlockSize - off <;>
      simp [addRecordLoop, hNew, hfrag, hEnd, hp, hoff2, hdropne]

/-- The properties `AddRecord` guarantees of one loop run starting at
offset `off` with payload `data` (`isBegin` = this is the first
fragment of the logical record). -/
def LoopSpec (off : Nat) (data : List Nat) (isBegin : Bool)
    (res : Nat × List LogChunk) : Prop :=
  ((chunkRecords res.2).map Prod.snd).flatten = data ∧
  (chunkRecords res.2).map Prod.fst
    = typePattern isBegin (chunkRecords res.2).length ∧
  1 ≤ (chunkRecords res.2).length ∧
  (∀ p ∈ chunkPads res.2,
    p.length < kHeaderSize ∧ p = List.replicate p.length 0) ∧
  res.1 ≤ kBlockSize ∧
  (data = [] → chunkRecords res.2
    = [(if isBegin then RecordType.full else RecordType.last, [])]) ∧
  (¬ (kBlockSize - off < kHeaderSize) →
    data.length ≤ kBlockSize - off - kHeaderSize →
    res.2 = [LogChunk.record
      (if isBegin then RecordType.full else RecordType.last) data])

theorem chunkRecords_record_cons (t : RecordType) (p : List Nat)
    (cs : List LogChunk) :
    chunkRecords (LogChunk.record t p :: cs) = (t, p) :: chunkRecords cs := rfl

theorem chunkRecords_pad_cons (p : List Nat) (cs : List LogChunk) :
    chunkRecords (LogChunk.pad p :: cs) = chunkRecords cs := rfl

theorem chunkPads_record_cons (t : RecordType) (p : List Nat)
    (cs : List LogChunk) :
    chunkPads (LogChunk.record t p :: cs) = chunkPads cs := rfl

theorem chunkPads_pad_cons (p : List Nat) (cs : List LogChunk) :
    chunkPads (LogChunk.pad p :: cs) = p :: chunkPads cs := rfl

theorem typePattern_cons (isBegin : Bool) (n : Nat) (hn : 1 ≤ n) :
    (if isBegin then RecordType.first else RecordType.middle)
        :: typePattern false n
      = typePattern isBegin (n + 1) := by
  cases isBegin
  · obtain ⟨k, rfl⟩ : ∃ k, n = k + 1 := ⟨n - 1, by omega⟩
    simp [typePattern, List.replicate_succ]
  · have h2 : ¬ (n + 1 ≤ 1) := by omega
    have h3 : n + 1 - 2 = n - 1 := by omega
    simp [typePattern, h2, h3]

theorem addRecordLoop_spec : ∀ (fuel off : Nat) (data : List Nat)
    (isBegin : Bool), off ≤ kBlockSize →
    2 * data.length + (if off = kBlockSize - kHeaderSize then 2 else 1)
      ≤ fuel →
    LoopSpec off data isBegin (addRecordLoop fuel off data isBegin) := by
  intro fuel
  have hBS : kBlockSize = 32768 := rfl
  have hHS : kHeaderSize = 7 := rfl
  induction fuel with
  | zero =>
    intro off data isBegin hoff hm
    exfalso
    split at hm <;> omega
  | succ fuel ih =>
    intro off data isBegin hoff hm
    by_cases hNew : kBlockSize - off < kHeaderSize
    · by_cases hEnd : data.length ≤ kBlockSize - kHeaderSize
      · rw [addRecordLoop_step_switch_end fuel off data isBegin hNew hEnd]
        refine ⟨?_, ?_, ?_, ?_, ?_, ?_, ?_⟩
        · by_cases hp : 0 < kBlockSize - off <;>
            simp [hp, chunkRecords]
        · by_cases hp : 0 < kBlockSize - off <;>
            cases isBegin <;>
            simp [hp, chunkRecords, typePattern]
        · by_cases hp : 0 < kBlockSize - off <;>
            simp [hp, chunkRecords]
        · intro p hp
          by_cases hq : 0 < kBlockSize - off
          · simp [hq, chunkPads] at hp
            subst hp
            exact ⟨by simp; omega, by simp⟩
          · simp [hq, chunkPads] at hp
        · simp only
          omega
        · intro hdata
          by_cases hp : 0 < kBlockSize - off <;>
            cases isBegin <;>
            simp [hp, chunkRecords, hdata]
        · intro hcontra
          exact absurd hNew hcontra
      · rw [addRecordLoop_step_switch_cont fuel off data isBegin hNew hEnd]
        have hmeas : 2 * (data.drop (kBlockSize - kHeaderSize)).length
            + (if kBlockSize = kBlockSize - kHeaderSize then 2 else 1)
            ≤ fuel := by
          rw [if_neg (by omega), List.length_drop]
          split at hm <;> omega
        obtain ⟨ihA, ihB, ihC, ihD, ihE, ihF, ihG⟩ :=
          ih kBlockSize (data.drop (kBlockSize - kHeaderSize)) false
            (le_refl _) hmeas
        set next := addRecordLoop fuel kBlockSize
          (data.drop (kBlockSize - kHeaderSize)) false with hnext
        have hpref : ∀ res : List LogChunk,
            (if 0 < kBlockSize - off
             then [LogChunk.pad (List.replicate (kBlockSize - off) 0)]
             else []) ++ res = res ∨
            (if 0 < kBlockSize - off
             then [LogChunk.pad (List.replicate (kBlockSize - off) 0)]
             else []) ++ res
              = LogChunk.pad (List.replicate (kBlockSize - off) 0) :: res := by
          intro res
          by_cases hp : 0 < kBlockSize - off
          · right; rw [if_pos hp]; rfl
          · left; rw [if_neg hp]; rfl
        set res2 := (if 0 < kBlockSize - off
            then [LogChunk.pad (List.replicate (kBlockSize - off) 0)]
            else []) ++ LogChunk.record
              (if isBegin then RecordType.first else RecordType.middle)
              (data.take (kBlockSize - kHeaderSize)) :: next.2 with hres2
        have hcr : chunkRecords res2
            = (if isBegin then RecordType.first else RecordType.middle,
               data.take (kBlockSize - kHeaderSize)) :: chunkRecords next.2 := by
          rw [hres2]
          rcases hpref (LogChunk.record _ _ :: next.2) with hq | hq <;>
            rw [hq] <;>
            simp [chunkRecords_pad_cons, chunkRecords_record_cons]
        have hcp : chunkPads res2 = chunkPads next.2 ∨
            chunkPads res2
              = List.replicate (kBlockSize - off) 0 :: chunkPads next.2 := by
          rw [hres2]
          rcases hpref (LogChunk.record _ _ :: next.2) with hq | hq <;>
            rw [hq]
          · left; rw [chunkPads_record_cons]
          · right; rw [chunkPads_pad_cons, chunkPads_record_cons]
        refine ⟨?_, ?_, ?_, ?_, ?_, ?_, ?_⟩
        · rw [hcr]
          simp only [List.map_cons, List.flatten_cons, ihA]
          exact List.take_append_drop _ data
        · rw [hcr]
          simp only [List.map_cons, List.length_cons, ihB]
          exact typePattern_cons isBegin _ ihC
        · rw [hcr]
          simp
        · intro p hp
          rcases hcp with hq | hq
          · exact ihD p (hq ▸ hp)
          · rw [hq] at hp
            rcases List.mem_cons.mp hp with hp | hp
            · subst hp
              exact ⟨by simp; omega, by simp⟩
            · exact ihD p hp
        · exact ihE
        · intro hdata
          exact absurd (by simp [hdata] : data.length ≤ kBlockSize - kHeaderSize)
            hEnd
        · intro hcontra
          exact absurd hNew hcontra
    · by_cases hEnd : data.length ≤ kBlockSize - off - kHeaderSize
      · rw [addRecordLoop_step_noswitch_end fuel off data isBegin hNew hEnd]
        refine ⟨?_, ?_, ?_, ?_, ?_, ?_, ?_⟩
        · simp [chunkRecords]
        · cases isBegin <;> simp [chunkRecords, typePattern]
        · simp [chunkRecords]
        · intro p hp
          simp [chunkPads] at hp
        · simp only
          omega
        · intro hdata
          cases isBegin <;> simp [chunkRecords, hdata]
        · intro _ _
          rfl
      · rw [addRecordLoop_step_noswitch_cont fuel off data isBegin hNew hEnd]
        have hmeas : 2 * (data.drop (kBlockSize - off - kHeaderSize)).length
            + (if kBlockSize = kBlockSize - kHeaderSize then 2 else 1)
            ≤ fuel := by
          rw [if_neg (by omega), List.length_drop]
          split at hm <;> omega
        obtain ⟨ihA, ihB, ihC, ihD, ihE, ihF, ihG⟩ :=
          ih kBlockSize (data.drop (kBlockSize - off - kHeaderSize)) false
            (le_refl _) hmeas
        set next := addRecordLoop fuel kBlockSize
          (data.drop (kBlockSize - off - kHeaderSize)) false with hnext
        refine ⟨?_, ?_, ?_, ?_, ?_, ?_, ?_⟩
        · rw [chunkRecords_record_cons]
          simp only [List.map_cons, List.flatten_cons, ihA]
          exact List.take_append_drop _ data
        · rw [chunkRecords_record_cons]
          simp only [List.map_cons, List.length_cons, ihB]
          exact typePattern_cons isBegin _ ihC
        · rw [chunkRecords_record_cons]
          simp
        · intro p hp
          rw [chunkPads_record_cons] at hp
          exact ihD p hp
        · exact ihE
        · intro hdata
          exact absurd (by simp [hdata] : data.length ≤ kBlockSize - off
            - kHeaderSize) hEnd
        · intro _ hq
          exact absurd hq hEnd

/-- **C6.** For any writer offset within a block, `add_record` emits
physical records whose concatenated payloads equal the input payload;
an unsplit record is typed `Full` and a split record is typed
`First, Middle*, Last`; an empty payload still emits one zero-length
`Full` record; every padding run emitted when fewer than `kHeaderSize`
bytes remain in a block is zero-filled and shorter than a header; and
when the payload fits in the current block\'s remaining space the record
is a single `Full` record — the split is decided only by that remaining
space.  The final offset stays within the 32 KiB block. -/
theorem log_writer_addRecord_spec (off : Nat) (data : List Nat)
    (hoff : off ≤ kBlockSize) :
    ((chunkRecords (addRecord off data).2).map Prod.snd).flatten = data ∧
    (chunkRecords (addRecord off data).2).map Prod.fst
      = typePattern true (chunkRecords (addRecord off data).2).length ∧
    1 ≤ (chunkRecords (addRecord off data).2).length ∧
    (data = [] →
      chunkRecords (addRecord off data).2 = [(RecordType.full, [])]) ∧
    (∀ p ∈ chunkPads (addRecord off data).2,
      p.length < kHeaderSize ∧ p = List.replicate p.length 0) ∧
    (kHeaderSize ≤ kBlockSize - off →
      data.length ≤ kBlockSize - off - kHeaderSize →
      (addRecord off data).2 = [LogChunk.record RecordType.full data]) ∧
    (addRecord off data).1 ≤ kBlockSize := by
  obtain ⟨hA, hB, hC, hD, hE, hF, hG⟩ :=
    addRecordLoop_spec (2 * data.length + 3) off data true hoff
      (by split <;> omega)
  exact ⟨hA, hB, hC, fun h => by simpa using hF h, hD,
    fun h1 h2 => by
      have hHS : kHeaderSize = 7 := rfl
      simpa using hG (by omega) h2, hE⟩

/-- Witness for C6: a 3-byte payload written at offset 0 comes out as a
single `Full` record with the same payload and no padding. -/
theorem log_writer_addRecord_witness :
    (0 : Nat) ≤ kBlockSize ∧
    ((chunkRecords (addRecord 0 [1, 2, 3]).2).map Prod.snd).flatten
      = [1, 2, 3] ∧
    (addRecord 0 [1, 2, 3]).2
      = [LogChunk.record RecordType.full [1, 2, 3]] := by
  have h := log_writer_addRecord_spec 0 [1, 2, 3] (by decide)
  exact ⟨by decide, h.1, h.2.2.2.2.2.1 (by decide) (by decide)⟩

/-! ### LRU cache (src/cache.cpp)

One shard (`LRUCache`) is modelled under its mutex as a sequential state.
An `LRUHandle` carries `in_cache`, `refs`, `charge` and sits on the
`lru_` list, the `in_use_` list, or neither; handles are named by a
numeric `id` standing for the C++ pointer identity.  The recency ORDER
of the `lru_` list is abstracted away (eviction picks the first
`lru_`-resident entry in our list rather than the least recently used):
the invariant under verification (I5) concerns only list membership.
A handle is dropped from `entries` when `Unref` frees it. -/

/-- Which internal list a handle is on. -/
inductive CacheList where
  | onLru
  | onInUse
  | offList
deriving DecidableEq, Repr

/-- `LRUHandle` (src/cache.cpp lines 53-76). -/
structure CacheHandle where
  id : Nat
  key : Nat
  charge : Nat
  inCache : Bool
  refs : Nat
  list : CacheList
deriving DecidableEq, Repr

/-- One `LRUCache` shard: live handles, `usage_`, `capacity_`. -/
structure CacheState where
  entries : List CacheHandle
  usage : Nat
  capacity : Nat
deriving DecidableEq, Repr

/-- Update the handle named `i` in place (pointer update in C++). -/
def updateEntry (es : List CacheHandle) (i : Nat)
    (f : CacheHandle → CacheHandle) : List CacheHandle :=
  es.map fun e => if e.id = i then f e else e

/-- Drop the handle named `i` (`free(e)` in C++). -/
def removeEntry (es : List CacheHandle) (i : Nat) : List CacheHandle :=
  es.filter fun e => ¬ e.id = i

/-- Find a live handle by identity. -/
def findEntry (es : List CacheHandle) (i : Nat) : Option CacheHandle :=
  es.find? fun e => e.id = i

/-- The hash table holds exactly the `in_cache` handles, keyed by `key`:
`HandleTable::Lookup`. -/
def cacheFindKey (s : CacheState) (k : Nat) : Option CacheHandle :=
  s.entries.find? fun e => e.inCache ∧ e.key = k

/-- `LRUCache::Ref` (src/cache.cpp lines 230-238): an entry acquiring
its first external reference moves from `lru_` to `in_use_`. -/
def cacheRef (s : CacheState) (i : Nat) : CacheState :=
  { s with entries := updateEntry s.entries i fun e =>
      if e.refs = 1 ∧ e.inCache
      then { e with list := CacheList.onInUse, refs := e.refs + 1 }
      else { e with refs := e.refs + 1 } }

/-- `LRUCache::Unref` (src/cache.cpp lines 240-256): drop a reference;
free at zero; move to `lru_` when the last external reference of an
in-cache entry goes away. -/
def cacheUnref (s : CacheState) (i : Nat) : CacheState :=
  match findEntry s.entries i with
  | none => s
  | some e =>
    if e.refs = 1 then { s with entries := removeEntry s.entries i }
    else if e.inCache ∧ e.refs - 1 = 1 then
      { s with entries := updateEntry s.entries i fun e =>
          { e with refs := e.refs - 1, list := CacheList.onLru } }
    else
      { s with entries := updateEntry s.entries i fun e =>
          { e with refs := e.refs - 1 } }

/-- `LRUCache::FinishErase` (src/cache.cpp lines 333-344) applied to a
handle already removed from the hash table: leave the lists, clear
`in_cache`, release the cache\'s reference. -/
def cacheFinishErase (s : CacheState) (i : Nat) : CacheState :=
  match findEntry s.entries i with
  | none => s
  | some e =>
    cacheUnref
      { s with
        entries := updateEntry s.entries i fun e =>
          { e with inCache := false, list := CacheList.offList },
        usage := s.usage - e.charge } i

/-- `LRUCache::Lookup` (src/cache.cpp lines 273-282). -/
def cacheLookup (s : CacheState) (k : Nat) : CacheState :=
  match cacheFindKey s k with
  | none => s
  | some e => cacheRef s e.id

/-- Identity never used by a live handle. -/
def freshId (s : CacheState) : Nat :=
  (s.entries.map CacheHandle.id).foldr max 0 + 1

/-- Eviction loop of `LRUCache::Insert` (src/cache.cpp lines 317-326):
while over capacity, erase an `lru_`-resident entry.  `fuel` bounds the
iterations; each iteration removes one entry, so `entries.length`
suffices. -/
def cacheEvictLoop : Nat → CacheState → CacheState
  | 0, s => s
  | fuel + 1, s =>
    if s.capacity < s.usage then
      match s.entries.find? (fun e => e.list = CacheList.onLru) with
      | none => s
      | some e => cacheEvictLoop fuel (cacheFinishErase s e.id)
    else s

/-- `LRUCache::Insert` (src/cache.cpp lines 290-329): new handle with
one client reference; if the cache holds entries (`capacity_ > 0`) give
it the cache reference, put it on `in_use_`, displace a duplicate key,
then evict while over capacity. -/
def cacheInsert (s : CacheState) (k charge : Nat) : CacheState :=
  let i := freshId s
  if 0 < s.capacity then
    let s1 : CacheState :=
      { s with
        entries := s.entries
          ++ [⟨i, k, charge, true, 2, CacheList.onInUse⟩],
        usage := s.usage + charge }
    let s2 := match cacheFindKey s k with
      | none => s1
      | some old => cacheFinishErase s1 old.id
    cacheEvictLoop s2.entries.length s2
  else
    let s1 : CacheState :=
      { s with entries := s.entries
          ++ [⟨i, k, charge, false, 1, CacheList.offList⟩] }
    cacheEvictLoop s1.entries.length s1

/-- `LRUCache::Erase` (src/cache.cpp lines 346-350). -/
def cacheErase (s : CacheState) (k : Nat) : CacheState :=
  match cacheFindKey s k with
  | none => s
  | some e => cacheFinishErase s e.id

/-- Loop of `LRUCache::Prune` (src/cache.cpp lines 352-365): erase
every `lru_`-resident entry. -/
def cachePruneLoop : Nat → CacheState → CacheState
  | 0, s => s
  | fuel + 1, s =>
    match s.entries.find? (fun e => e.list = CacheList.onLru) with
    | none => s
    | some e => cachePruneLoop fuel (cacheFinishErase s e.id)

/-- `LRUCache::Prune`. -/
def cachePrune (s : CacheState) : CacheState :=
  cachePruneLoop s.entries.length s

/-- The five public shard operations (`Release` performs `Unref`). -/
inductive CacheOp where
  | insert (key charge : Nat)
  | lookup (key : Nat)
  | release (id : Nat)
  | erase (key : Nat)
  | prune

/-- Dispatch one operation. -/
def cacheStep : CacheOp → CacheState → CacheState
  | CacheOp.insert k c, s => cacheInsert s k c
  | CacheOp.lookup k, s => cacheLookup s k
  | CacheOp.release i, s => cacheUnref s i
  | CacheOp.erase k, s => cacheErase s k
  | CacheOp.prune, s => cachePrune s

/-- References held by clients: all but the cache\'s own (the cache
holds one reference exactly while `in_cache`). -/
def externalRefs (e : CacheHandle) : Nat :=
  e.refs - (if e.inCache then 1 else 0)

/-- `Release` may only drop a reference a client actually holds (the
API contract stated in src/cache.cpp lines 19-28); the other
operations are unrestricted. -/
def ValidOp : CacheOp → CacheState → Prop
  | CacheOp.release i, s => ∃ e ∈ s.entries, e.id = i ∧ 1 ≤ externalRefs e
  | _, _ => True

/-- Invariant (I5), per handle: on the LRU list iff in the cache with no
external references; on the in-use list iff in the cache with at least
one external reference; on neither list iff removed from the cache.
(`refs ≥ 1`: a handle at zero references is freed.) -/
def goodHandle (e : CacheHandle) : Prop :=
  1 ≤ e.refs ∧
  (e.list = CacheList.onLru ↔ e.inCache = true ∧ externalRefs e = 0) ∧
  (e.list = CacheList.onInUse ↔ e.inCache = true ∧ 1 ≤ externalRefs e) ∧
  (e.list = CacheList.offList ↔ e.inCache = false)

/-- Invariant of a shard state: every live handle satisfies (I5) and
handle identities are distinct (pointer identity). -/
def CacheGood (s : CacheState) : Prop :=
  (∀ e ∈ s.entries, goodHandle e) ∧
  s.entries.Pairwise (fun a b => a.id ≠ b.id)

instance : DecidablePred (fun e : CacheHandle => goodHandle e) := fun e => by
  unfold goodHandle
  infer_instance

instance (s : CacheState) : Decidable (CacheGood s) := by
  unfold CacheGood
  infer_instance

instance (op : CacheOp) (s : CacheState) : Decidable (ValidOp op s) := by
  cases op <;> (unfold ValidOp; infer_instance)

theorem mem_updateEntry {es : List CacheHandle} {i : Nat}
    {f : CacheHandle → CacheHandle} {x : CacheHandle}
    (h : x ∈ updateEntry es i f) :
    ∃ e ∈ es, x = if e.id = i then f e else e := by
  rw [updateEntry] at h
  obtain ⟨e, he, rfl⟩ := List.mem_map.mp h
  exact ⟨e, he, rfl⟩

theorem updateEntry_pairwise_id {es : List CacheHandle} {i : Nat}
    {f : CacheHandle → CacheHandle} (hf : ∀ e, (f e).id = e.id)
    (h : es.Pairwise fun a b => a.id ≠ b.id) :
    (updateEntry es i f).Pairwise fun a b => a.id ≠ b.id := by
  rw [updateEntry, List.pairwise_map]
  refine h.imp ?_
  intro a b hab
  show (if a.id = i then f a else a).id ≠ (if b.id = i then f b else b).id
  have h1 : (if a.id = i then f a else a).id = a.id := by
    split <;> simp [hf]
  have h2 : (if b.id = i then f b else b).id = b.id := by
    split <;> simp [hf]
  rw [h1, h2]
  exact hab

theorem findEntry_mem {es : List CacheHandle} {i : Nat} {e : CacheHandle}
    (h : findEntry es i = some e) : e ∈ es ∧ e.id = i := by
  refine ⟨List.mem_of_find?_eq_some h, ?_⟩
  have h2 := List.find?_some h
  simpa using h2

theorem eq_of_mem_mem_id {es : List CacheHandle}
    (hnd : es.Pairwise fun a b => a.id ≠ b.id) {a b : CacheHandle}
    (ha : a ∈ es) (hb : b ∈ es) (hid : a.id = b.id) : a = b := by
  induction es with
  | nil => simp at ha
  | cons h t ih =>
    rcases List.mem_cons.mp ha with rfl | ha' <;>
      rcases List.mem_cons.mp hb with rfl | hb'
    · rfl
    · exact absurd hid ((List.pairwise_cons.mp hnd).1 b hb')
    · exact absurd hid.symm ((List.pairwise_cons.mp hnd).1 a ha')
    · exact ih (List.pairwise_cons.mp hnd).2 ha' hb'

theorem le_foldr_max (l : List Nat) : ∀ x ∈ l, x ≤ l.foldr max 0 := by
  induction l with
  | nil => simp
  | cons a t ih =>
    intro x hx
    rcases List.mem_cons.mp hx with rfl | hx'
    · exact le_max_left _ _
    · exact le_trans (ih x hx') (le_max_right _ _)

theorem freshId_not_mem (s : CacheState) :
    ∀ e ∈ s.entries, e.id ≠ freshId s := by
  intro e he
  have := le_foldr_max (s.entries.map CacheHandle.id) e.id
    (List.mem_map_of_mem CacheHandle.id he)
  rw [freshId]
  omega

theorem cacheRef_good {s : CacheState} {i : Nat} (hs : CacheGood s)
    (hin : ∀ e ∈ s.entries, e.id = i → e.inCache = true) :
    CacheGood (cacheRef s i) := by
  obtain ⟨hg, hnd⟩ := hs
  refine ⟨?_, updateEntry_pairwise_id (fun e => by split <;> rfl) hnd⟩
  intro x hx
  obtain ⟨e, he, rfl⟩ := mem_updateEntry hx
  by_cases hid : e.id = i
  · have hic := hin e he hid
    obtain ⟨h1, h2, h3, h4⟩ := hg e he
    rw [if_pos hid]
    by_cases hcase : e.refs = 1 ∧ e.inCache = true
    · rw [if_pos hcase]
      simp [goodHandle, externalRefs, hic, hcase.1]
    · rw [if_neg hcase]
      have hr2 : 2 ≤ e.refs := by
        by_contra hc
        exact hcase ⟨by omega, hic⟩
      have hlist : e.list = CacheList.onInUse :=
        h3.mpr ⟨hic, by simp [externalRefs, hic]; omega⟩
      simp [goodHandle, externalRefs, hic, hlist]
      omega
  · rw [if_neg hid]
    exact hg e he

theorem cacheUnref_good {s : CacheState} {i : Nat} (hs : CacheGood s)
    (hv : ∀ e ∈ s.entries, e.id = i → (e.inCache = false ∨ 2 ≤ e.refs)) :
    CacheGood (cacheUnref s i) := by
  obtain ⟨hg, hnd⟩ := hs
  rcases hfe : findEntry s.entries i with _ | e0
  · rw [cacheUnref]
    simp only [hfe]
    exact ⟨hg, hnd⟩
  · obtain ⟨hmem, hid⟩ := findEntry_mem hfe
    rw [cacheUnref]
    simp only [hfe]
    by_cases h1 : e0.refs = 1
    · rw [if_pos h1]
      refine ⟨?_, hnd.sublist (List.filter_sublist _)⟩
      intro x hx
      exact hg x (List.mem_of_mem_filter hx)
    · rw [if_neg h1]
      obtain ⟨hr1, hl1, hl2, hl3⟩ := hg e0 hmem
      by_cases h2 : e0.inCache = true ∧ e0.refs - 1 = 1
      · rw [if_pos h2]
        refine ⟨?_, updateEntry_pairwise_id (fun e => rfl) hnd⟩
        intro x hx
        obtain ⟨e, he, rfl⟩ := mem_updateEntry hx
        by_cases hide : e.id = i
        · rw [if_pos hide, eq_of_mem_mem_id hnd he hmem (hide.trans hid.symm)]
          have hrefs2 : e0.refs = 2 := by omega
          refine ⟨?_, ?_, ?_, ?_⟩
          · simp [hrefs2]
          · simp [externalRefs, h2.1, hrefs2]
          · simp [externalRefs, h2.1, hrefs2]
          · simp [h2.1]
        · rw [if_neg hide]
          exact hg e he
      · rw [if_neg h2]
        refine ⟨?_, updateEntry_pairwise_id (fun e => rfl) hnd⟩
        intro x hx
        obtain ⟨e, he, rfl⟩ := mem_updateEntry hx
        by_cases hide : e.id = i
        · rw [if_pos hide, eq_of_mem_mem_id hnd he hmem (hide.trans hid.symm)]
          by_cases hic : e0.inCache = true
          · have hr3 : 3 ≤ e0.refs := by
              rcases hv e0 hmem hid with hq | hq
              · rw [hic] at hq
                exact absurd hq (by simp)
              · have hne : ¬ e0.refs - 1 = 1 := fun hc => h2 ⟨hic, hc⟩
                omega
            have hlist : e0.list = CacheList.onInUse := by
              refine hl2.mpr ⟨hic, ?_⟩
              rw [externalRefs, if_pos hic]
              omega
            refine ⟨?_, ?_, ?_, ?_⟩
            · simp
              omega
            · simp [externalRefs, hic, hlist]
              omega
            · simp [externalRefs, hic, hlist]
              omega
            · simp [hic, hlist]
          · have hlist : e0.list = CacheList.offList :=
              hl3.mpr (by simpa using hic)
            refine ⟨?_, ?_, ?_, ?_⟩
            · simp
              omega
            · simp [externalRefs, hic, hlist]
            · simp [externalRefs, hic, hlist]
            · simp [hic, hlist]
        · rw [if_neg hide]
          exact hg e he

theorem cacheFinishErase_good {s : CacheState} {i : Nat}
    (hs : CacheGood s) : CacheGood (cacheFinishErase s i) := by
  obtain ⟨hg, hnd⟩ := hs
  rcases hfe : findEntry s.entries i with _ | e0
  · rw [cacheFinishErase]
    simp only [hfe]
    exact ⟨hg, hnd⟩
  · rw [cacheFinishErase]
    simp only [hfe]
    have hs1 : CacheGood
        { s with
          entries := updateEntry s.entries i fun e =>
            { e with inCache := false, list := CacheList.offList },
          usage := s.usage - e0.charge } := by
      refine ⟨?_, updateEntry_pairwise_id (fun e => rfl) hnd⟩
      intro x hx
      obtain ⟨e, he, rfl⟩ := mem_updateEntry hx
      by_cases hide : e.id = i
      · rw [if_pos hide]
        have hge := hg e he
        obtain ⟨h1, _, _, _⟩ := hge
        exact ⟨by simpa using h1, by simp, by simp, by simp⟩
      · rw [if_neg hide]
        exact hg e he
    refine cacheUnref_good hs1 ?_
    intro x hx hxid
    obtain ⟨e, he, rfl⟩ := mem_updateEntry hx
    by_cases hide : e.id = i
    · rw [if_pos hide]
      left
      rfl
    · rw [if_neg hide] at hxid ⊢
      exact absurd hxid hide

theorem cacheEvictLoop_good {fuel : Nat} {s : CacheState}
    (hs : CacheGood s) : CacheGood (cacheEvictLoop fuel s) := by
  induction fuel generalizing s with
  | zero => exact hs
  | succ fuel ih =>
    rw [cacheEvictLoop]
    split
    · rcases hfind : s.entries.find? (fun e => e.list = CacheList.onLru)
        with _ | e <;> simp only [hfind]
      · exact hs
      · exact ih (cacheFinishErase_good hs)
    · exact hs

theorem cachePruneLoop_good {fuel : Nat} {s : CacheState}
    (hs : CacheGood s) : CacheGood (cachePruneLoop fuel s) := by
  induction fuel generalizing s with
  | zero => exact hs
  | succ fuel ih =>
    rw [cachePruneLoop]
    rcases hfind : s.entries.find? (fun e => e.list = CacheList.onLru)
      with _ | e <;> simp only [hfind]
    · exact hs
    · exact ih (cacheFinishErase_good hs)

/-- **C9.** Every LRU-cache operation — insert, lookup, release, erase,
prune — preserves invariant (I5): a live entry is on the LRU list iff
it is in the cache with zero external references, on the in-use list
iff it is in the cache with at least one external reference, and on
neither list iff it has been removed from the cache (external
references being those beyond the cache\'s own); `release` is applied,
per the cache\'s API contract, to a handle the client holds. -/
theorem lru_cache_invariant (op : CacheOp) (s : CacheState)
    (hs : CacheGood s) (hv : ValidOp op s) :
    CacheGood (cacheStep op s) := by
  cases op with
  | insert k c =>
    rw [cacheStep, cacheInsert]
    split
    · apply cacheEvictLoop_good
      have hs1 : CacheGood
          { s with
            entries := s.entries
              ++ [⟨freshId s, k, c, true, 2, CacheList.onInUse⟩],
            usage := s.usage + c } := by
        obtain ⟨hg, hnd⟩ := hs
        constructor
        · intro x hx
          rcases List.mem_append.mp hx with hx' | hx'
          · exact hg x hx'
          · rw [List.mem_singleton.mp hx']
            exact ⟨by simp, by simp [externalRefs], by simp [externalRefs],
              by simp⟩
        · rw [List.pairwise_append]
          refine ⟨hnd, List.pairwise_singleton _ _, ?_⟩
          intro a ha b hb
          rw [List.mem_singleton.mp hb]
          exact freshId_not_mem s a ha
      rcases hok : cacheFindKey s k with _ | old <;> simp only [hok]
      · exact hs1
      · exact cacheFinishErase_good hs1
    · apply cacheEvictLoop_good
      obtain ⟨hg, hnd⟩ := hs
      constructor
      · intro x hx
        rcases List.mem_append.mp hx with hx' | hx'
        · exact hg x hx'
        · rw [List.mem_singleton.mp hx']
          exact ⟨by simp, by simp [externalRefs], by simp [externalRefs],
            by simp⟩
      · rw [List.pairwise_append]
        refine ⟨hnd, List.pairwise_singleton _ _, ?_⟩
        intro a ha b hb
        rw [List.mem_singleton.mp hb]
        exact freshId_not_mem s a ha
  | lookup k =>
    rw [cacheStep, cacheLookup]
    rcases hfk : cacheFindKey s k with _ | e <;> simp only [hfk]
    · exact hs
    · have he : e ∈ s.entries ∧ (e.inCache = true ∧ e.key = k) := by
        refine ⟨List.mem_of_find?_eq_some hfk, ?_⟩
        have := List.find?_some hfk
        simpa using this
      refine cacheRef_good hs ?_
      intro x hx hxid
      have : x = e := eq_of_mem_mem_id hs.2 hx he.1 hxid
      rw [this]
      exact he.2.1
  | release i =>
    rw [cacheStep]
    obtain ⟨e, he, heid, hext⟩ := hv
    refine cacheUnref_good hs ?_
    intro x hx hxid
    have hxe : x = e := eq_of_mem_mem_id hs.2 hx he (hxid.trans heid.symm)
    rw [hxe]
    rw [externalRefs] at hext
    by_cases hic : e.inCache = true
    · right
      rw [if_pos hic] at hext
      omega
    · left
      simpa using hic
  | erase k =>
    rw [cacheStep, cacheErase]
    rcases hek : cacheFindKey s k with _ | e <;> simp only [hek]
    · exact hs
    · exact cacheFinishErase_good hs
  | prune =>
    rw [cacheStep, cachePrune]
    exact cachePruneLoop_good hs

/-- Witness for C9: a concrete insert into a small well-formed cache
state holding one in-use and one LRU-resident entry. -/
theorem lru_cache_invariant_witness :
    CacheGood ⟨[⟨1, 10, 1, true, 2, CacheList.onInUse⟩,
                ⟨2, 20, 1, true, 1, CacheList.onLru⟩], 2, 2⟩ ∧
    ValidOp (CacheOp.insert 30 1)
      ⟨[⟨1, 10, 1, true, 2, CacheList.onInUse⟩,
        ⟨2, 20, 1, true, 1, CacheList.onLru⟩], 2, 2⟩ ∧
    CacheGood (cacheStep (CacheOp.insert 30 1)
      ⟨[⟨1, 10, 1, true, 2, CacheList.onInUse⟩,
        ⟨2, 20, 1, true, 1, CacheList.onLru⟩], 2, 2⟩) := by
  refine ⟨by decide, by decide, ?_⟩
  exact lru_cache_invariant (CacheOp.insert 30 1) _ (by decide) (by decide)

/-! ### Varint32 and length-prefixed slices (util/coding.cpp) -/

/-- `EncodeVarint32` (util/coding.cpp lines 12-47): the unrolled
five-way case split over the magnitude of `v`. -/
def encodeVarint32 (v : Nat) : List Nat :=
  if v < 2 ^ 7 then [v % 128]
  else if v < 2 ^ 14 then
    [v % 128 + 128, v / 128 % 128]
  else if v < 2 ^ 21 then
    [v % 128 + 128, v / 128 % 128 + 128, v / 128 ^ 2 % 128]
  else if v < 2 ^ 28 then
    [v % 128 + 128, v / 128 % 128 + 128, v / 128 ^ 2 % 128 + 128,
     v / 128 ^ 3 % 128]
  else
    [v % 128 + 128, v / 128 % 128 + 128, v / 128 ^ 2 % 128 + 128,
     v / 128 ^ 3 % 128 + 128, v / 128 ^ 4 % 128]

/-- Loop of `GetVarint32Ptr` (util/coding.cpp lines 123-139).  The C++
`while` condition is `p < limit && shift <= 28`;
`result |= uint32(byte & 0x7f) << shift` is 32-bit arithmetic, hence the
`% 2 ^ 32`. -/
def getVarint32Loop : List Nat → Nat → Nat → Nat → Option (Nat × Nat)
  | [], _, _, _ => none
  | b :: rest, shift, result, consumed =>
    if shift ≤ 28 then
      let byte := b % 256
      if 128 ≤ byte then
        getVarint32Loop rest (shift + 7)
          (result ||| ((byte % 128) <<< shift) % 2 ^ 32) (consumed + 1)
      else some (result ||| (byte <<< shift) % 2 ^ 32, consumed + 1)
    else none

/-- `GetVarint32Ptr`: decode one varint32 from the front of `bs`. -/
def getVarint32 (bs : List Nat) : Option (Nat × Nat) :=
  getVarint32Loop bs 0 0 0

theorem getVarint32Loop_cons (b : Nat) (rest : List Nat)
    (shift result consumed : Nat) :
    getVarint32Loop (b :: rest) shift result consumed =
      if shift ≤ 28 then
        if 128 ≤ b % 256 then
          getVarint32Loop rest (shift + 7)
            (result ||| ((b % 256 % 128) <<< shift) % 2 ^ 32) (consumed + 1)
        else some (result ||| ((b % 256) <<< shift) % 2 ^ 32, consumed + 1)
      else none := rfl

theorem encodeVarint64_small {v : Nat} (h : v < 128) :
    encodeVarint64 v = [v] := by
  rw [encodeVarint64]
  simp [h, Nat.mod_eq_of_lt h]

theorem encodeVarint64_big {v : Nat} (h : 128 ≤ v) :
    encodeVarint64 v = (v % 128 + 128) :: encodeVarint64 (v / 128) := by
  rw [encodeVarint64]
  simp [show ¬ v < 128 by omega]

/-- The unrolled `EncodeVarint32` emits the same LEB128 bytes as the
loop-based `EncodeVarint64` for every 32-bit value. -/
theorem encodeVarint32_eq (v : Nat) (hv : v < 2 ^ 32) :
    encodeVarint32 v = encodeVarint64 v := by
  have hdd2 : v / 128 / 128 = v / 128 ^ 2 := by
    rw [Nat.div_div_eq_div_mul]; norm_num
  have hdd3 : v / 128 / 128 / 128 = v / 128 ^ 3 := by
    rw [Nat.div_div_eq_div_mul, Nat.div_div_eq_div_mul]; norm_num
  have hdd4 : v / 128 / 128 / 128 / 128 = v / 128 ^ 4 := by
    rw [Nat.div_div_eq_div_mul, Nat.div_div_eq_div_mul,
      Nat.div_div_eq_div_mul]; norm_num
  rw [encodeVarint32]
  by_cases h1 : v < 2 ^ 7
  · rw [if_pos h1, encodeVarint64_small (show v < 128 by omega)]
    rw [Nat.mod_eq_of_lt (show v < 128 by omega)]
  · rw [if_neg h1]
    by_cases h2 : v < 2 ^ 14
    · rw [if_pos h2, encodeVarint64_big (show 128 ≤ v by omega),
        encodeVarint64_small (show v / 128 < 128 by omega),
        Nat.mod_eq_of_lt (show v / 128 < 128 by omega)]
    · rw [if_neg h2]
      by_cases h3 : v < 2 ^ 21
      · rw [if_pos h3, encodeVarint64_big (show 128 ≤ v by omega),
          encodeVarint64_big (show 128 ≤ v / 128 by omega),
          encodeVarint64_small (show v / 128 / 128 < 128 by omega),
          ← hdd2, Nat.mod_eq_of_lt (show v / 128 / 128 < 128 by omega)]
      · rw [if_neg h3]
        by_cases h4 : v < 2 ^ 28
        · rw [if_pos h4, encodeVarint64_big (show 128 ≤ v by omega),
            encodeVarint64_big (show 128 ≤ v / 128 by omega),
            encodeVarint64_big (show 128 ≤ v / 128 / 128 by omega),
            encodeVarint64_small (show v / 128 / 128 / 128 < 128 by omega),
            ← hdd2, ← hdd3,
            Nat.mod_eq_of_lt (show v / 128 / 128 / 128 < 128 by omega)]
        · rw [if_neg h4, encodeVarint64_big (show 128 ≤ v by omega),
            encodeVarint64_big (show 128 ≤ v / 128 by omega),
            encodeVarint64_big (show 128 ≤ v / 128 / 128 by omega),
            encodeVarint64_big (show 128 ≤ v / 128 / 128 / 128 by omega),
            encodeVarint64_small
              (show v / 128 / 128 / 128 / 128 < 128 by omega),
            ← hdd2, ← hdd3, ← hdd4,
            Nat.mod_eq_of_lt
              (show v / 128 / 128 / 128 / 128 < 128 by omega)]

theorem getVarint32Loop_encode (v : Nat) : ∀ (n result consumed : Nat)
    (rest : List Nat), v < 2 ^ (32 - 7 * n) → n ≤ 4 → result < 2 ^ (7 * n) →
    getVarint32Loop (encodeVarint64 v ++ rest) (7 * n) result consumed
      = some (result + v * 2 ^ (7 * n),
              consumed + (encodeVarint64 v).length) := by
  induction v using Nat.strong_induction_on with
  | _ v ih =>
    intro n result consumed rest hv hn hres
    have hshift : 7 * n ≤ 28 := by omega
    by_cases h128 : v < 128
    · have henc : encodeVarint64 v = [v % 128] := by
        rw [encodeVarint64]; simp [h128]
      have hm : v % 128 = v := Nat.mod_eq_of_lt h128
      rw [henc, hm, List.singleton_append, getVarint32Loop_cons,
        if_pos hshift]
      have hb : v % 256 = v := Nat.mod_eq_of_lt (by omega)
      rw [hb, if_neg (by omega)]
      have hsh : v <<< (7 * n) = v * 2 ^ (7 * n) := Nat.shiftLeft_eq v _
      have hvn : v * 2 ^ (7 * n) < 2 ^ 32 := by
        calc v * 2 ^ (7 * n) < 2 ^ (32 - 7 * n) * 2 ^ (7 * n) :=
              (Nat.mul_lt_mul_right (Nat.two_pow_pos _)).mpr hv
          _ = 2 ^ 32 := by rw [← Nat.pow_add]; congr 1; omega
      rw [hsh, Nat.mod_eq_of_lt hvn, ← hsh,
        lor_shiftLeft_eq_add _ _ _ hres, hsh]
      simp
    · have henc : encodeVarint64 v
          = (v % 128 + 128) :: encodeVarint64 (v / 128) := by
        rw [encodeVarint64]; simp [h128]
      rw [henc, List.cons_append, getVarint32Loop_cons, if_pos hshift]
      have hb : (v % 128 + 128) % 256 = v % 128 + 128 :=
        Nat.mod_eq_of_lt (by omega)
      rw [hb, if_pos (by omega)]
      have hmm : (v % 128 + 128) % 128 = v % 128 := by omega
      rw [hmm]
      have hn8 : n + 1 ≤ 4 := by
        by_contra hc
        have h9 : n = 4 := by omega
        subst h9
        have : v < 2 ^ 4 := by norm_num at hv ⊢; omega
        omega
      have hdiv : v / 128 < 2 ^ (32 - 7 * (n + 1)) := by
        have h77 : (32 - 7 * (n + 1)) + 7 = 32 - 7 * n := by omega
        have hlt : v < 2 ^ (32 - 7 * (n + 1)) * 2 ^ 7 := by
          rw [← Nat.pow_add, h77]; exact hv
        norm_num at hlt; omega
      have hshl : (v % 128) <<< (7 * n) = (v % 128) * 2 ^ (7 * n) :=
        Nat.shiftLeft_eq _ _
      have hlt32 : (v % 128) * 2 ^ (7 * n) < 2 ^ 32 := by
        calc (v % 128) * 2 ^ (7 * n) < 2 ^ 7 * 2 ^ (7 * n) :=
              (Nat.mul_lt_mul_right (Nat.two_pow_pos _)).mpr (by omega)
          _ = 2 ^ (7 + 7 * n) := by rw [← Nat.pow_add]
          _ ≤ 2 ^ 32 := Nat.pow_le_pow_right (by norm_num) (by omega)
      have hresult' :
          result ||| ((v % 128) <<< (7 * n)) % 2 ^ 32
            = result + (v % 128) * 2 ^ (7 * n) := by
        rw [hshl, Nat.mod_eq_of_lt hlt32, ← hshl,
          lor_shiftLeft_eq_add _ _ _ hres, hshl]
      have hres' : result + (v % 128) * 2 ^ (7 * n) < 2 ^ (7 * (n + 1)) := by
        have h1 : (v % 128) * 2 ^ (7 * n) ≤ 127 * 2 ^ (7 * n) :=
          Nat.mul_le_mul_right _ (by omega)
        have h2 : 2 ^ (7 * (n + 1)) = 128 * 2 ^ (7 * n) := by
          rw [show 7 * (n + 1) = 7 + 7 * n by ring, Nat.pow_add]
        omega
      have h7n : 7 * n + 7 = 7 * (n + 1) := by ring
      rw [hresult', h7n,
        ih (v / 128) (Nat.div_lt_self (by omega) (by norm_num))
          (n + 1) (result + (v % 128) * 2 ^ (7 * n)) (consumed + 1) rest
          hdiv hn8 hres']
      have hval : result + v % 128 * 2 ^ (7 * n) + v / 128 * 2 ^ (7 * (n + 1))
          = result + v * 2 ^ (7 * n) := by
        have hp : 2 ^ (7 * (n + 1)) = 2 ^ (7 * n) * 128 := by
          rw [show 7 * (n + 1) = 7 * n + 7 by ring, Nat.pow_add]
        have hv128 : v % 128 + v / 128 * 128 = v := by omega
        calc result + v % 128 * 2 ^ (7 * n) + v / 128 * 2 ^ (7 * (n + 1))
            = result + (v % 128 + v / 128 * 128) * 2 ^ (7 * n) := by
              rw [hp]; ring
          _ = result + v * 2 ^ (7 * n) := by rw [hv128]
      rw [hval]
      congr 2
      simp only [List.length_cons]
      omega

/-- Decoding the front of a byte string that starts with the varint32
encoding of `v < 2 ^ 32` returns `v` and consumes exactly its bytes. -/
theorem getVarint32_encode (v : Nat) (hv : v < 2 ^ 32) (rest : List Nat) :
    getVarint32 (encodeVarint32 v ++ rest)
      = some (v, (encodeVarint32 v).length) := by
  rw [encodeVarint32_eq v hv]
  have := getVarint32Loop_encode v 0 0 0 rest (by simpa using hv)
    (by omega) (by norm_num)
  simpa [getVarint32] using this

/-! ### Status values (include/status.h) -/

/-- `Status` (include/status.h): an OK value or an error code with a
message. -/
inductive Status where
  | ok
  | notFound (msg : String)
  | corruption (msg : String)
  | notSupported (msg : String)
  | invalidArgument (msg : String)
  | ioError (msg : String)
deriving DecidableEq, Repr

/-- `Status::ok()`. -/
def Status.isOk : Status → Bool
  | .ok => true
  | _ => false

/-! ### Length-prefixed slices (util/coding.cpp) -/

/-- `PutLengthPrefixedSlice` (util/coding.cpp lines 90-94): varint32
length, then the bytes. -/
def encodeLengthPrefixed (s : List Nat) : List Nat :=
  encodeVarint32 s.length ++ s

/-- `GetLengthPrefixedSlice` (util/coding.cpp lines 111-121): read a
varint32 length, fail unless that many bytes remain, return them and
the unconsumed remainder. -/
def parseLP (input : List Nat) : Option (List Nat × List Nat) :=
  match getVarint32 input with
  | none => none
  | some (len, consumed) =>
    if (input.drop consumed).length < len then none
    else some ((input.drop consumed).take len, (input.drop consumed).drop len)

theorem parseLP_length_le {input s r : List Nat}
    (h : parseLP input = some (s, r)) : r.length ≤ input.length := by
  rw [parseLP] at h
  rcases hg : getVarint32 input with _ | p
  · rw [hg] at h
    exact absurd h (by simp)
  · obtain ⟨len, consumed⟩ := p
    rw [hg] at h
    simp only at h
    split at h
    · exact absurd h (by simp)
    · simp only [Option.some.injEq, Prod.mk.injEq] at h
      obtain ⟨_, hr⟩ := h
      rw [← hr]
      simp only [List.length_drop]
      omega

/-- Parsing undoes `encodeLengthPrefixed` at the front of a buffer. -/
theorem parseLP_encode (s rest : List Nat) (hs : s.length < 2 ^ 32) :
    parseLP (encodeLengthPrefixed s ++ rest) = some (s, rest) := by
  rw [encodeLengthPrefixed, List.append_assoc, parseLP,
    getVarint32_encode s.length hs (s ++ rest)]
  simp only [List.drop_left, List.length_append]
  rw [if_neg (by omega), List.take_left]

/-! ### Memtable entries and the seek-based point lookup
(src/memtable.cpp, src/db_impl.cpp) -/

/-- One key/value record as stored in a memtable or sorted table: user
key, 56-bit sequence number, type tag (`kTypeValue` or `kTypeDeletion`)
and value bytes. -/
structure Entry where
  ukey : List Nat
  seq : Nat
  ty : Nat
  value : List Nat
deriving DecidableEq, Repr

/-- The internal key of an entry. -/
def entryIKey (e : Entry) : List Nat := mkInternalKey e.ukey e.seq e.ty

/-- The internal key a point lookup seeks with: `LookupKey(key, snapshot)`
packs `(snapshot << 8) | kValueTypeForSeek` after the user key
(include/dbformat.cpp). -/
def seekIKey (ukey : List Nat) (snap : Nat) : List Nat :=
  mkInternalKey ukey snap kValueTypeForSeek

/-- What `MemTable::Get` (src/memtable.cpp lines 124-167) does with the
entry the seek stopped at: a different user key is a miss, a
`kTypeValue` entry yields its value, a `kTypeDeletion` entry reports the
deletion (`NotFound`), and the switch falls through (a miss) on any
other tag. -/
def inspectEntry (e : Entry) (ukey : List Nat) : Option (Option (List Nat)) :=
  if bytewiseCompare e.ukey ukey = 0 then
    if e.ty = kTypeValue then some (some e.value)
    else if e.ty = kTypeDeletion then some none
    else none
  else none

/-- The probe of `MemTable::Get`: position on the first entry whose
internal key is at or after the lookup key, then inspect it.  `none` is
a miss, `some (some v)` a value hit, `some none` a deletion hit, which
the caller turns into `NotFound`. -/
def containerSeekGet (entries : List Entry) (ukey : List Nat) (snap : Nat) :
    Option (Option (List Nat)) :=
  match entries.find? (fun e =>
      decide (0 ≤ internalKeyCompare (entryIKey e) (seekIKey ukey snap))) with
  | none => none
  | some e => inspectEntry e ukey

/-- `MemTable::Get` (src/memtable.cpp lines 124-167). -/
def memtableGet (entries : List Entry) (ukey : List Nat) (snap : Nat) :
    Option (Option (List Nat)) :=
  containerSeekGet entries ukey snap

/-- The effect of `SaveValue` (src/db_impl.cpp lines 116-140) on its
`TableGetState`: only a `kTypeValue` entry with the matching user key
sets `value_found` and stores the value.  A deletion marker (and the
corruption cases) are reported solely through the status `SaveValue`
returns, which its caller throws away (see `tableInternalGet`);
`TableGetState` has no deletion field. -/
def saveValueEffect (e : Entry) (ukey : List Nat) : Option (List Nat) :=
  if bytewiseCompare e.ukey ukey = 0 ∧ e.ty = kTypeValue then some e.value
  else none

/-- `Table::InternalGet` (include/table/table.h lines 113-136): seek the
index and block iterators to the first entry at or after the internal
key and, if one exists, call `handle_result` on it, discarding the
status `handle_result` returns (line 125; only the iterators’ own
statuses are propagated, OK in this model).  The probe outcome is
therefore just the handler side effect: a deletion marker never
surfaces as `NotFound` from a table. -/
def tableInternalGet (entries : List Entry) (ukey : List Nat)
    (snap : Nat) : Option (List Nat) :=
  match entries.find? (fun e =>
      decide (0 ≤ internalKeyCompare (entryIKey e) (seekIKey ukey snap))) with
  | none => none
  | some e => saveValueEffect e ukey

/-- Modelled from the spec: `TableCache::Get` is declared in
include/table_cache.h line 33 but its implementation file is not part
of src/.  Per spec §4.13 it finds or opens the cached `Table` for the
file and invokes `Table::internal_get`, whose code is present in src/
and modelled above; the probe result is the one `InternalGet`
produces. -/
def tableCacheGet (entries : List Entry) (ukey : List Nat) (snap : Nat) :
    Option (List Nat) :=
  tableInternalGet entries ukey snap

/-! ### Database state (src/db_impl.cpp) -/

/-- A memtable: its entries (kept in internal-key order by the skip
list) and the arena's `ApproximateMemoryUsage`.  The arena growth of one
insertion depends on random skip-list heights and block rounding, so the
model carries the usage as data and updates it by an oracle-supplied
increment. -/
structure MemModel where
  entries : List Entry
  usage : Nat
deriving DecidableEq, Repr

/-- `SkipList::Insert`: the new node goes to its ordered position. -/
def sortedInsert : List Entry → Entry → List Entry
  | [], e => [e]
  | x :: xs, e =>
    if internalKeyCompare (entryIKey e) (entryIKey x) < 0 then e :: x :: xs
    else x :: sortedInsert xs e

/-- `MemTable::Add` (src/memtable.cpp lines 83-122): insert the encoded
entry into the skip list; `inc` is the oracle-supplied arena growth of
this insertion. -/
def memAdd (m : MemModel) (seq ty : Nat) (k v : List Nat) (inc : Nat) :
    MemModel :=
  { entries := sortedInsert m.entries ⟨k, seq, ty, v⟩
    usage := m.usage + inc }

/-- The in-memory metadata of one sorted table (`FileMeta`); the model
also carries the entries stored in the table so reads can be stated. -/
structure FileMeta where
  number : Nat
  fileSize : Nat
  entries : List Entry
deriving DecidableEq, Repr

/-- One open write-ahead log file: its number, the records handed to
`log::Writer::AddRecord` in order, and how many of them have been
fsynced. -/
structure LogFileModel where
  number : Nat
  records : List (List Nat)
  syncedLen : Nat
deriving DecidableEq, Repr

/-- The database-directory names the flush path creates and removes. -/
inductive DiskName where
  | logF (n : Nat)
  | tableF (n : Nat)
deriving DecidableEq, Repr

/-- The `DBImpl` fields the Get/Write/Flush paths read and write:
`sequence_`, `mem_`, `imm_`, `files_`, the open log
(`log_`/`logfile_`/`logfile_number_` collapsed into one optional
record), `next_file_number_`, `options_.write_buffer_size`, and the
directory contents. -/
structure DBState where
  sequence : Nat
  mem : MemModel
  imm : Option MemModel
  files : List FileMeta
  log : Option LogFileModel
  nextFileNumber : Nat
  writeBufferSize : Nat
  disk : List DiskName
deriving DecidableEq, Repr

/-- `ReadOptions`: the only field the modelled paths look at is the
snapshot pointer, and only for the null test in `DBImpl::NewIterator`. -/
structure DBReadOptions where
  snapshot : Option Nat
deriving DecidableEq, Repr

/-- `WriteOptions`. -/
structure DBWriteOptions where
  sync : Bool
deriving DecidableEq, Repr

/-- The snapshot `DBImpl::Get` reads at (src/db_impl.cpp line 983):
`sequence_ == 0 ? 0 : sequence_ - 1`.  `read_options.snapshot` is never
consulted. -/
def dbSnapshot (st : DBState) : Nat :=
  if st.sequence = 0 then 0 else st.sequence - 1

/-- The sorted-table loop of `DBImpl::Get` (lines 1007-1018): newest
file first (`files_.rbegin()`), return the value as soon as
`state.value_found` is set.  Because `Table::InternalGet` discards
`SaveValue` statuses, a deletion marker leaves `value_found` false and
the loop simply moves on to the next (older) table; `NotFound` when
every table misses. -/
def filesGet : List FileMeta → List Nat → Nat → Except Status (List Nat)
  | [], _, _ => Except.error (Status.notFound "")
  | f :: rest, ukey, snap =>
    match tableCacheGet f.entries ukey snap with
    | some v => Except.ok v
    | none => filesGet rest ukey snap

/-- `DBImpl::Get` (src/db_impl.cpp lines 980-1020): probe the active
memtable, then the immutable memtable, then the tables newest-first.
The read options play no part in the result. -/
def dbGet (st : DBState) (_opts : DBReadOptions) (ukey : List Nat) :
    Except Status (List Nat) :=
  match memtableGet st.mem.entries ukey (dbSnapshot st) with
  | some (some v) => Except.ok v
  | some none => Except.error (Status.notFound "")
  | none =>
    match (match st.imm with
           | some m => memtableGet m.entries ukey (dbSnapshot st)
           | none => none) with
    | some (some v) => Except.ok v
    | some none => Except.error (Status.notFound "")
    | none => filesGet st.files.reverse ukey (dbSnapshot st)

/-! ### Spec-side Get (spec §4.6, invariant I1) -/

/-- Spec side, written from the spec\'s words for comparison with the
code model: the newest entry for the user key with sequence at most the
snapshot. -/
def specNewest : List Entry → List Nat → Nat → Option Entry
  | [], _, _ => none
  | e :: rest, ukey, snap =>
    if e.ukey = ukey ∧ e.seq ≤ snap then
      match specNewest rest ukey snap with
      | none => some e
      | some m => if m.seq ≤ e.seq then some e else some m
    else specNewest rest ukey snap

/-- Spec side: the Get result invariant I1 prescribes — the newest
visible entry\'s value, `NotFound` when that entry is a deletion or when
there is none. -/
def specGetResult (entries : List Entry) (ukey : List Nat) (snap : Nat) :
    Except Status (List Nat) :=
  match specNewest entries ukey snap with
  | some e =>
    if e.ty = kTypeValue then Except.ok e.value
    else Except.error (Status.notFound "")
  | none => Except.error (Status.notFound "")

/-- What one sorted table contributes under the present `InternalGet`:
its newest visible entry, and only when that entry is a value; a
deletion marker just hides its table. -/
def tableValue (entries : List Entry) (ukey : List Nat) (snap : Nat) :
    Option (List Nat) :=
  match specNewest entries ukey snap with
  | some e => if e.ty = kTypeValue then some e.value else none
  | none => none

/-- Entry-level reading of the table loop: tables newest first, the
first one whose newest visible entry is a value wins; deletion markers
do not stop the search. -/
def tablesSpec : List (List Entry) → List Nat → Nat →
    Except Status (List Nat)
  | [], _, _ => Except.error (Status.notFound "")
  | L :: rest, ukey, snap =>
    match tableValue L ukey snap with
    | some v => Except.ok v
    | none => tablesSpec rest ukey snap

/-- Entry-level characterization of what `DBImpl::Get` computes: the
memtable layers follow the newest-entry rule of invariant I1 (a
deletion there answers `NotFound`), but once the lookup reaches the
sorted tables a deletion marker only hides its own table, so a deleted
key can resurface from an older table. -/
def layeredGetResult (st : DBState) (ukey : List Nat) :
    Except Status (List Nat) :=
  match specNewest st.mem.entries ukey (dbSnapshot st) with
  | some e =>
    if e.ty = kTypeValue then Except.ok e.value
    else Except.error (Status.notFound "")
  | none =>
    match (match st.imm with
           | some m => specNewest m.entries ukey (dbSnapshot st)
           | none => none) with
    | some e =>
      if e.ty = kTypeValue then Except.ok e.value
      else Except.error (Status.notFound "")
    | none =>
      tablesSpec (st.files.reverse.map FileMeta.entries) ukey
        (dbSnapshot st)

/-! ### Well-formed database states -/

/-- The read layers in probe order: active memtable, immutable memtable
if present, then the sorted tables newest-first. -/
def dbLayers (st : DBState) : List (List Entry) :=
  st.mem.entries
    :: ((match st.imm with | some m => [m.entries] | none => [])
        ++ st.files.reverse.map FileMeta.entries)

/-- Every entry of the state, in probe order. -/
def allEntries (st : DBState) : List Entry := (dbLayers st).flatten

/-- A well-typed entry: 56-bit sequence, tag `kTypeValue` or
`kTypeDeletion`. -/
def entryWT (e : Entry) : Prop := e.seq ≤ kMaxSequenceNumber ∧ e.ty ≤ 1

/-- A container sorted strictly by the internal-key order. -/
def entriesSorted (l : List Entry) : Prop :=
  l.Pairwise (fun a b => internalKeyCompare (entryIKey a) (entryIKey b) < 0)

/-- Layer `A` shadows layer `B`: whenever both hold the same user key,
`A`\'s copy is strictly newer. -/
def LayerNewer (A B : List Entry) : Prop :=
  ∀ a ∈ A, ∀ b ∈ B, a.ukey = b.ukey → b.seq < a.seq

/-- Well-formedness of a database state as the write path maintains it:
every layer sorted and well-typed, earlier layers shadowing later ones,
and the sequence counter within the 56-bit range. -/
def DBWellFormed (st : DBState) : Prop :=
  (∀ L ∈ dbLayers st, entriesSorted L ∧ ∀ e ∈ L, entryWT e) ∧
  (dbLayers st).Pairwise LayerNewer ∧
  st.sequence ≤ kMaxSequenceNumber + 1

instance (e : Entry) : Decidable (entryWT e) := by
  unfold entryWT; infer_instance

instance (l : List Entry) : Decidable (entriesSorted l) := by
  unfold entriesSorted; infer_instance

instance (A B : List Entry) : Decidable (LayerNewer A B) := by
  unfold LayerNewer; infer_instance

instance (st : DBState) : Decidable (DBWellFormed st) := by
  unfold DBWellFormed; infer_instance

/-! ### The seek-based lookup agrees with the spec-side newest entry -/

/-- Sign of the comparator between a well-typed entry and the lookup
key: the entry is at or after the lookup key exactly when, on the same
user key, it is at or below the snapshot, and on a different user key,
its user key sorts after. -/
theorem seek_sign (e : Entry) (ukey : List Nat) (snap : Nat)
    (hwt : entryWT e) (hsnap : snap ≤ kMaxSequenceNumber) :
    (0 ≤ internalKeyCompare (entryIKey e) (seekIKey ukey snap)
      ↔ (if e.ukey = ukey then e.seq ≤ snap
         else 0 < bytewiseCompare e.ukey ukey)) := by
  obtain ⟨hs, ht⟩ := hwt
  have hkv : kValueTypeForSeek = 1 := rfl
  rw [entryIKey, seekIKey, internalKeyCompare_mk e.ukey ukey e.seq snap
    e.ty kValueTypeForSeek hs hsnap (by omega) (by omega),
    packSequenceAndType_eq snap kValueTypeForSeek (by omega),
    packSequenceAndType_eq e.seq e.ty (by omega), hkv]
  by_cases hu : e.ukey = ukey
  · have h0 : bytewiseCompare e.ukey ukey = 0 :=
      (bytewiseCompare_eq_zero_iff _ _).mpr hu
    rw [if_pos hu, h0, if_neg (by simp)]
    constructor
    · intro hle
      by_contra hgt
      rw [if_pos (by omega)] at hle
      omega
    · intro hle
      rw [if_neg (by omega)]
      split <;> omega
  · have h0 : bytewiseCompare e.ukey ukey ≠ 0 := fun hc =>
      hu ((bytewiseCompare_eq_zero_iff _ _).mp hc)
    rw [if_neg hu, if_pos h0]
    constructor
    · intro h
      omega
    · intro h
      omega

theorem find?_seek_cons_pos {e : Entry} {rest : List Entry}
    {ukey : List Nat} {snap : Nat}
    (h : 0 ≤ internalKeyCompare (entryIKey e) (seekIKey ukey snap)) :
    List.find? (fun x =>
        decide (0 ≤ internalKeyCompare (entryIKey x) (seekIKey ukey snap)))
      (e :: rest) = some e :=
  List.find?_cons_of_pos _ (by simpa using h)

theorem find?_seek_cons_neg {e : Entry} {rest : List Entry}
    {ukey : List Nat} {snap : Nat}
    (h : ¬ 0 ≤ internalKeyCompare (entryIKey e) (seekIKey ukey snap)) :
    List.find? (fun x =>
        decide (0 ≤ internalKeyCompare (entryIKey x) (seekIKey ukey snap)))
      (e :: rest)
      = List.find? (fun x =>
          decide (0 ≤ internalKeyCompare (entryIKey x) (seekIKey ukey snap)))
        rest :=
  List.find?_cons_of_neg _ (by simpa using h)

/-- Within one sorted container, an entry placed after another with the
same user key carries a strictly smaller tag. -/
theorem sorted_same_ukey (a b : Entry) (hwa : entryWT a) (hwb : entryWT b)
    (hu : a.ukey = b.ukey)
    (hord : internalKeyCompare (entryIKey a) (entryIKey b) < 0) :
    b.seq * 256 + b.ty < a.seq * 256 + a.ty := by
  obtain ⟨ha1, ha2⟩ := hwa
  obtain ⟨hb1, hb2⟩ := hwb
  rw [entryIKey, entryIKey,
    internalKeyCompare_mk _ _ _ _ _ _ ha1 hb1 (by omega) (by omega),
    (bytewiseCompare_eq_zero_iff _ _).mpr hu, if_neg (by simp),
    packSequenceAndType_eq _ _ (by omega),
    packSequenceAndType_eq _ _ (by omega)] at hord
  by_contra hc
  rw [if_neg (by omega)] at hord
  split at hord <;> omega

/-- Entries of different user keys compare like their user keys. -/
theorem sorted_diff_ukey (a b : Entry) (hwa : entryWT a) (hwb : entryWT b)
    (hu : a.ukey ≠ b.ukey)
    (hord : internalKeyCompare (entryIKey a) (entryIKey b) < 0) :
    bytewiseCompare a.ukey b.ukey < 0 := by
  obtain ⟨ha1, ha2⟩ := hwa
  obtain ⟨hb1, hb2⟩ := hwb
  have h0 : bytewiseCompare a.ukey b.ukey ≠ 0 := fun hc =>
    hu ((bytewiseCompare_eq_zero_iff _ _).mp hc)
  rw [entryIKey, entryIKey,
    internalKeyCompare_mk _ _ _ _ _ _ ha1 hb1 (by omega) (by omega),
    if_pos h0] at hord
  exact hord

theorem specNewest_cons_pos {e : Entry} {rest : List Entry}
    {ukey : List Nat} {snap : Nat} (h : e.ukey = ukey ∧ e.seq ≤ snap) :
    specNewest (e :: rest) ukey snap =
      match specNewest rest ukey snap with
      | none => some e
      | some m => if m.seq ≤ e.seq then some e else some m := by
  rw [specNewest, if_pos h]

theorem specNewest_cons_neg {e : Entry} {rest : List Entry}
    {ukey : List Nat} {snap : Nat} (h : ¬(e.ukey = ukey ∧ e.seq ≤ snap)) :
    specNewest (e :: rest) ukey snap = specNewest rest ukey snap := by
  rw [specNewest, if_neg h]

/-- Whatever `specNewest` picks is a member matching the query. -/
theorem specNewest_mem : ∀ {l : List Entry} {ukey : List Nat} {snap : Nat}
    {m : Entry}, specNewest l ukey snap = some m →
    m ∈ l ∧ m.ukey = ukey ∧ m.seq ≤ snap := by
  intro l
  induction l with
  | nil =>
    intro ukey snap m h
    exact absurd h (by rw [specNewest]; simp)
  | cons e rest ih =>
    intro ukey snap m h
    by_cases hc : e.ukey = ukey ∧ e.seq ≤ snap
    · rw [specNewest_cons_pos hc] at h
      rcases hm : specNewest rest ukey snap with _ | m2
      · rw [hm] at h
        simp only [Option.some.injEq] at h
        subst h
        exact ⟨by simp, hc⟩
      · rw [hm] at h
        simp only at h
        by_cases hle : m2.seq ≤ e.seq
        · rw [if_pos hle] at h
          simp only [Option.some.injEq] at h
          subst h
          exact ⟨by simp, hc⟩
        · rw [if_neg hle] at h
          simp only [Option.some.injEq] at h
          obtain ⟨hmem, hu2, hs2⟩ := ih hm
          subst h
          exact ⟨by simp [hmem], hu2, hs2⟩
    · rw [specNewest_cons_neg hc] at h
      obtain ⟨hmem, hu2, hs2⟩ := ih h
      exact ⟨by simp [hmem], hu2, hs2⟩

/-- On a sorted, well-typed container, the code\'s seek-and-inspect
lookup returns exactly what the spec\'s newest-visible-entry rule says. -/
theorem containerSeekGet_eq_spec : ∀ (entries : List Entry)
    (ukey : List Nat) (snap : Nat), entriesSorted entries →
    (∀ e ∈ entries, entryWT e) → snap ≤ kMaxSequenceNumber →
    containerSeekGet entries ukey snap
      = (specNewest entries ukey snap).map
          (fun e => if e.ty = kTypeValue then some e.value else none) := by
  intro entries
  induction entries with
  | nil => intro ukey snap _ _ _; rfl
  | cons e rest ih =>
    intro ukey snap hsorted hwt hsnap
    rw [entriesSorted, List.pairwise_cons] at hsorted
    obtain ⟨hhead, htail⟩ := hsorted
    have hwe := hwt e (by simp)
    by_cases hP : 0 ≤ internalKeyCompare (entryIKey e) (seekIKey ukey snap)
    · rw [containerSeekGet, find?_seek_cons_pos hP]
      have hsign := (seek_sign e ukey snap hwe hsnap).mp hP
      by_cases hu : e.ukey = ukey
      · rw [if_pos hu] at hsign
        have hspec : specNewest (e :: rest) ukey snap = some e := by
          rcases hm : specNewest rest ukey snap with _ | m
          · rw [specNewest_cons_pos ⟨hu, hsign⟩, hm]
          · obtain ⟨hmem, hmu, hms⟩ := specNewest_mem hm
            have hord := hhead m hmem
            have htag := sorted_same_ukey e m hwe (hwt m (by simp [hmem]))
              (hu.trans hmu.symm) hord
            have hm2 := (hwt m (by simp [hmem])).2
            have he2 := hwe.2
            rw [specNewest_cons_pos ⟨hu, hsign⟩, hm]
            show (if m.seq ≤ e.seq then some e else some m) = some e
            rw [if_pos (by omega : m.seq ≤ e.seq)]
        rw [hspec]
        show inspectEntry e ukey = _
        rw [inspectEntry,
          if_pos ((bytewiseCompare_eq_zero_iff _ _).mpr hu)]
        have hty := hwe.2
        rcases (by omega : e.ty = 0 ∨ e.ty = 1) with h0 | h1
        · rw [if_neg (by rw [kTypeValue]; omega),
            if_pos (by rw [kTypeDeletion]; omega)]
          show _ = some (if e.ty = kTypeValue then some e.value else none)
          rw [if_neg (by rw [kTypeValue]; omega)]
        · rw [if_pos (by rw [kTypeValue]; omega)]
          show _ = some (if e.ty = kTypeValue then some e.value else none)
          rw [if_pos (by rw [kTypeValue]; omega)]
      · rw [if_neg hu] at hsign
        have hspec : specNewest (e :: rest) ukey snap = none := by
          rw [specNewest_cons_neg (by simp [hu])]
          rcases hm : specNewest rest ukey snap with _ | m
          · rfl
          · obtain ⟨hmem, hmu, hms⟩ := specNewest_mem hm
            have hord := hhead m hmem
            have hdiff := sorted_diff_ukey e m hwe (hwt m (by simp [hmem]))
              (by rw [hmu]; exact hu) hord
            rw [hmu] at hdiff
            omega
        rw [hspec]
        show inspectEntry e ukey = _
        rw [inspectEntry,
          if_neg (fun hc => hu ((bytewiseCompare_eq_zero_iff _ _).mp hc))]
        rfl
    · have hskip : containerSeekGet (e :: rest) ukey snap
          = containerSeekGet rest ukey snap := by
        rw [containerSeekGet, containerSeekGet, find?_seek_cons_neg hP]
      have hfail : ¬(e.ukey = ukey ∧ e.seq ≤ snap) := by
        intro ⟨hu, hseq⟩
        exact hP ((seek_sign e ukey snap hwe hsnap).mpr (by rw [if_pos hu]; exact hseq))
      rw [hskip, specNewest_cons_neg hfail]
      exact ih ukey snap htail (fun x hx => hwt x (by simp [hx])) hsnap

/-! ### Layering: probing containers in order realises the global rule -/

/-- When `A` shadows `B`, the newest visible entry of `A ++ B` is `A`\'s
if it has one, else `B`\'s. -/
theorem specNewest_append (A B : List Entry) (ukey : List Nat)
    (snap : Nat) (hlayer : LayerNewer A B) :
    specNewest (A ++ B) ukey snap
      = match specNewest A ukey snap with
        | some e => some e
        | none => specNewest B ukey snap := by
  induction A with
  | nil => rw [List.nil_append, specNewest]
  | cons e A2 ih =>
    have hlayer2 : LayerNewer A2 B := fun a ha b hb =>
      hlayer a (by simp [ha]) b hb
    by_cases hc : e.ukey = ukey ∧ e.seq ≤ snap
    · rw [List.cons_append, specNewest_cons_pos hc, ih hlayer2,
        specNewest_cons_pos hc]
      rcases hA : specNewest A2 ukey snap with _ | m
      · show (match specNewest B ukey snap with
              | none => some e
              | some m => if m.seq ≤ e.seq then some e else some m)
            = some e
        rcases hB : specNewest B ukey snap with _ | mb
        · rfl
        · obtain ⟨hmem, hmu, hms⟩ := specNewest_mem hB
          have hlt : mb.seq < e.seq :=
            hlayer e (by simp) mb hmem (hc.1.trans hmu.symm)
          show (if mb.seq ≤ e.seq then some e else some mb) = some e
          rw [if_pos (by omega)]
      · show (if m.seq ≤ e.seq then some e else some m)
            = match (if m.seq ≤ e.seq then some e else some m) with
              | some x => some x
              | none => specNewest B ukey snap
        by_cases hle : m.seq ≤ e.seq <;> simp [hle]
    · rw [List.cons_append, specNewest_cons_neg hc, ih hlayer2,
        specNewest_cons_neg hc]

/-- `specGetResult` over a shadowing split. -/
theorem specGetResult_append (A B : List Entry) (ukey : List Nat)
    (snap : Nat) (hlayer : LayerNewer A B) :
    specGetResult (A ++ B) ukey snap
      = match specNewest A ukey snap with
        | some e =>
          if e.ty = kTypeValue then Except.ok e.value
          else Except.error (Status.notFound "")
        | none => specGetResult B ukey snap := by
  rw [specGetResult, specNewest_append A B ukey snap hlayer]
  rcases specNewest A ukey snap with _ | e
  · rw [specGetResult]
  · rfl

/-- A layer that shadows every member of a list of layers shadows their
concatenation. -/
theorem layerNewer_flatten {A : List Entry} {Bs : List (List Entry)}
    (h : ∀ B ∈ Bs, LayerNewer A B) : LayerNewer A Bs.flatten := by
  intro a ha b hb
  rw [List.mem_flatten] at hb
  obtain ⟨B, hB, hbB⟩ := hb
  exact h B hB a ha b hbB

theorem layerNewer_append {A B C : List Entry}
    (h1 : LayerNewer A B) (h2 : LayerNewer A C) : LayerNewer A (B ++ C) := by
  intro a ha b hb
  rw [List.mem_append] at hb
  rcases hb with hb | hb
  · exact h1 a ha b hb
  · exact h2 a ha b hb

/-- `SaveValue` effect = memtable inspection with the deletion report
thrown away. -/
theorem saveValueEffect_eq_join (e : Entry) (ukey : List Nat) :
    saveValueEffect e ukey = (inspectEntry e ukey).join := by
  rw [saveValueEffect, inspectEntry]
  by_cases hbw : bytewiseCompare e.ukey ukey = 0
  · rw [if_pos hbw]
    by_cases hty : e.ty = kTypeValue
    · rw [if_pos ⟨hbw, hty⟩, if_pos hty]
      rfl
    · rw [if_neg (fun hc => hty hc.2), if_neg hty]
      by_cases hdel : e.ty = kTypeDeletion
      · rw [if_pos hdel]
        rfl
      · rw [if_neg hdel]
        rfl
  · rw [if_neg (fun hc => hbw hc.1), if_neg hbw]
    rfl

/-- The table probe is the memtable probe with the deletion outcome
collapsed into a miss. -/
theorem tableInternalGet_eq_join (entries : List Entry) (ukey : List Nat)
    (snap : Nat) :
    tableInternalGet entries ukey snap
      = (containerSeekGet entries ukey snap).join := by
  rw [tableInternalGet, containerSeekGet]
  rcases hf : entries.find? (fun e =>
      decide (0 ≤ internalKeyCompare (entryIKey e) (seekIKey ukey snap)))
    with _ | e
  · rfl
  · exact saveValueEffect_eq_join e ukey

/-- On a sorted, well-typed table, the probe yields the newest visible
entry precisely when it is a value, and misses otherwise. -/
theorem tableInternalGet_eq_value (entries : List Entry)
    (ukey : List Nat) (snap : Nat) (hs : entriesSorted entries)
    (hw : ∀ e ∈ entries, entryWT e) (hsnap : snap ≤ kMaxSequenceNumber) :
    tableInternalGet entries ukey snap = tableValue entries ukey snap := by
  rw [tableInternalGet_eq_join,
    containerSeekGet_eq_spec entries ukey snap hs hw hsnap, tableValue]
  rcases specNewest entries ukey snap with _ | e
  · rfl
  · show (some (if e.ty = kTypeValue then some e.value else none)).join
        = (if e.ty = kTypeValue then some e.value else none)
    by_cases hty : e.ty = kTypeValue <;> simp [hty]

/-- The newest-first table loop of `DBImpl::Get` realises the
value-only table rule: the first table whose newest visible entry is a
value supplies the result; deletion markers do not stop it. -/
theorem filesGet_eq (ukey : List Nat) (snap : Nat)
    (hsnap : snap ≤ kMaxSequenceNumber) : ∀ (fs : List FileMeta),
    (∀ f ∈ fs, entriesSorted f.entries ∧ ∀ e ∈ f.entries, entryWT e) →
    filesGet fs ukey snap
      = tablesSpec (fs.map FileMeta.entries) ukey snap := by
  intro fs
  induction fs with
  | nil => intro _; rfl
  | cons f rest ih =>
    intro hwf
    obtain ⟨hfs, hfw⟩ := hwf f (by simp)
    rw [filesGet, tableCacheGet,
      tableInternalGet_eq_value f.entries ukey snap hfs hfw hsnap,
      List.map_cons, tablesSpec]
    rcases hv : tableValue f.entries ukey snap with _ | v
    · show filesGet rest ukey snap
          = tablesSpec (rest.map FileMeta.entries) ukey snap
      exact ih (fun x hx => hwf x (by simp [hx]))
    · rfl

/-- On a well-formed state, `DBImpl::Get` computes exactly the layered
entry-level rule at snapshot `sequence - 1`. -/
theorem dbGet_eq (st : DBState) (opts : DBReadOptions) (ukey : List Nat)
    (hwf : DBWellFormed st) :
    dbGet st opts ukey = layeredGetResult st ukey := by
  obtain ⟨hlayers, _, hseq⟩ := hwf
  have hsnap : dbSnapshot st ≤ kMaxSequenceNumber := by
    rw [dbSnapshot]
    split <;> omega
  have hmem := hlayers st.mem.entries (by rw [dbLayers]; simp)
  have hfiles : ∀ f ∈ st.files.reverse,
      entriesSorted f.entries ∧ ∀ e ∈ f.entries, entryWT e := fun f hf =>
    hlayers f.entries (List.mem_cons_of_mem _
      (List.mem_append_right _ (List.mem_map_of_mem _ hf)))
  rw [dbGet, layeredGetResult, memtableGet,
    containerSeekGet_eq_spec st.mem.entries ukey (dbSnapshot st)
      hmem.1 hmem.2 hsnap]
  rcases hA : specNewest st.mem.entries ukey (dbSnapshot st) with _ | e
  · show (match (match st.imm with
                 | some m => memtableGet m.entries ukey (dbSnapshot st)
                 | none => none) with
          | some (some v) => Except.ok v
          | some none => Except.error (Status.notFound "")
          | none => filesGet st.files.reverse ukey (dbSnapshot st))
        = (match (match st.imm with
                  | some m => specNewest m.entries ukey (dbSnapshot st)
                  | none => none) with
           | some e =>
             if e.ty = kTypeValue then Except.ok e.value
             else Except.error (Status.notFound "")
           | none =>
             tablesSpec (st.files.reverse.map FileMeta.entries) ukey
               (dbSnapshot st))
    rcases himm : st.imm with _ | mi
    · show filesGet st.files.reverse ukey (dbSnapshot st) = _
      exact filesGet_eq ukey (dbSnapshot st) hsnap st.files.reverse hfiles
    · have hml : mi.entries ∈ dbLayers st := by
        rw [dbLayers, himm]
        simp
      have himem := hlayers mi.entries hml
      show (match memtableGet mi.entries ukey (dbSnapshot st) with
            | some (some v) => Except.ok v
            | some none => Except.error (Status.notFound "")
            | none => filesGet st.files.reverse ukey (dbSnapshot st))
          = (match specNewest mi.entries ukey (dbSnapshot st) with
             | some e =>
               if e.ty = kTypeValue then Except.ok e.value
               else Except.error (Status.notFound "")
             | none =>
               tablesSpec (st.files.reverse.map FileMeta.entries) ukey
                 (dbSnapshot st))
      rw [memtableGet,
        containerSeekGet_eq_spec mi.entries ukey (dbSnapshot st)
          himem.1 himem.2 hsnap]
      rcases hB : specNewest mi.entries ukey (dbSnapshot st) with _ | e
      · show filesGet st.files.reverse ukey (dbSnapshot st) = _
        exact filesGet_eq ukey (dbSnapshot st) hsnap st.files.reverse
          hfiles
      · obtain ⟨hmm, _, _⟩ := specNewest_mem hB
        have hty := (himem.2 e hmm).2
        rcases (by omega : e.ty = 0 ∨ e.ty = 1) with h0 | h1
        · simp [h0, kTypeValue, kTypeDeletion]
        · simp [h1, kTypeValue, kTypeDeletion]
  · obtain ⟨hmm, _, _⟩ := specNewest_mem hA
    have hty := (hmem.2 e hmm).2
    rcases (by omega : e.ty = 0 ∨ e.ty = 1) with h0 | h1
    · simp [h0, kTypeValue, kTypeDeletion]
    · simp [h1, kTypeValue, kTypeDeletion]

/-- **C1** (amended).  For every read options and user key on a
well-formed state: the snapshot `Get` reads at is `sequence - 1` (0
when the sequence is 0) — the supplied `options.snapshot` is ignored,
so the result never depends on the read options — and the result
follows the layered rule: first the active, then the immutable memtable
under the newest-entry-at-or-below-the-snapshot rule (a deletion there
answers `NotFound`), then the sorted tables newest-first, where only a
table\'s newest visible entry counts and only when it is a value — a
deletion marker in a table merely hides that table, so a deleted key
can resurface from an older table; `NotFound` when every probe
misses. -/
theorem dbGet_spec (st : DBState) (opts : DBReadOptions) (ukey : List Nat)
    (hwf : DBWellFormed st) :
    dbGet st opts ukey = layeredGetResult st ukey ∧
    dbSnapshot st = (if st.sequence = 0 then 0 else st.sequence - 1) ∧
    dbGet st opts ukey = dbGet st ⟨none⟩ ukey :=
  ⟨dbGet_eq st opts ukey hwf, rfl, rfl⟩

/-- The first C1 counterexample state: sequence 6; the active memtable
holds user key "a" (byte 97) with value "v2" at sequence 5 and value
"v1" at sequence 1. -/
def c1State : DBState :=
  { sequence := 6
    mem := ⟨[⟨[97], 5, 1, [118, 50]⟩, ⟨[97], 1, 1, [118, 49]⟩], 0⟩
    imm := none
    files := []
    log := none
    nextFileNumber := 2
    writeBufferSize := 4096
    disk := [] }

/-- The second C1 counterexample state: empty memtables; the older
table (file 1) holds `a ↦ "v1"` at sequence 1, the newer table (file 2)
holds a deletion of `a` at sequence 5. -/
def c1bState : DBState :=
  { sequence := 6
    mem := ⟨[], 0⟩
    imm := none
    files := [⟨1, 1, [⟨[97], 1, 1, [118, 49]⟩]⟩,
              ⟨2, 1, [⟨[97], 5, 0, []⟩]⟩]
    log := none
    nextFileNumber := 3
    writeBufferSize := 4096
    disk := [] }

/-- **C1 counterexample**, two divergences from the claim.  First, with
`options.snapshot = some 2` the claim predicts the newest entry with
sequence ≤ 2, namely "v1"; the code ignores the option, reads at
snapshot `sequence - 1 = 5` and returns "v2".  Second, even at the
code\'s own snapshot the newest-entry rule fails across tables: with a
deletion of `a` at sequence 5 in the newer table and `a ↦ "v1"` at
sequence 1 in an older table, the claim (I1) predicts `NotFound`, but
`Table::InternalGet` discards the `NotFound` that `SaveValue` returns
for the deletion marker, so the loop walks on and returns "v1" from the
older table. -/
theorem dbGet_claim_counterexample :
    (dbGet c1State ⟨some 2⟩ [97] = Except.ok [118, 50] ∧
     specGetResult (allEntries c1State) [97] 2 = Except.ok [118, 49] ∧
     ([118, 50] : List Nat) ≠ [118, 49]) ∧
    (DBWellFormed c1bState ∧
     dbGet c1bState ⟨none⟩ [97] = Except.ok [118, 49] ∧
     specGetResult (allEntries c1bState) [97] (dbSnapshot c1bState)
       = Except.error (Status.notFound "")) :=
  ⟨⟨by rfl, by rfl, by decide⟩, ⟨by decide, by rfl, by rfl⟩⟩

/-- Witness for the amended C1 theorem at the concrete state. -/
theorem dbGet_spec_witness :
    DBWellFormed c1State ∧
    dbGet c1State ⟨some 7⟩ [97] = layeredGetResult c1State [97] :=
  ⟨by decide, (dbGet_spec c1State ⟨some 7⟩ [97] (by decide)).1⟩

/-! ### WriteBatch representation (src/write_batch.cpp) -/

/-- `WriteBatchInternal::Count` (line 88): fixed32 at offset 8. -/
def wbCount (b : List Nat) : Nat := decodeFixed32 (b.drop 8)

/-- `WriteBatchInternal::SetCount` (line 90). -/
def wbSetCount (b : List Nat) (n : Nat) : List Nat :=
  b.take 8 ++ encodeFixed32 n ++ b.drop 12

/-- `WriteBatchInternal::Sequence` (line 92): fixed64 at offset 0. -/
def wbSequence (b : List Nat) : Nat := decodeFixed64 b

/-- `WriteBatchInternal::SetSequence` (line 94). -/
def wbSetSequence (b : List Nat) (sq : Nat) : List Nat :=
  encodeFixed64 sq ++ b.drop 8

/-- A fresh `WriteBatch`: `rep_.resize(kHeader)` zero-fills the 12-byte
header. -/
def wbEmpty : List Nat := List.replicate 12 0

/-- `WriteBatch::Put` (lines 19-25). -/
def wbPut (b k v : List Nat) : List Nat :=
  wbSetCount b (wbCount b + 1)
    ++ [kTypeValue] ++ encodeLengthPrefixed k ++ encodeLengthPrefixed v

/-- `WriteBatch::Delete` (lines 27-32). -/
def wbDelete (b k : List Nat) : List Nat :=
  wbSetCount b (wbCount b + 1) ++ [kTypeDeletion] ++ encodeLengthPrefixed k

/-- One batch operation at the caller\'s level. -/
inductive WBOp where
  | put (k v : List Nat)
  | del (k : List Nat)
deriving DecidableEq, Repr

def wbStep (b : List Nat) : WBOp → List Nat
  | .put k v => wbPut b k v
  | .del k => wbDelete b k

/-- Building a batch by `Put`/`Delete` calls on a fresh `WriteBatch`. -/
def opsToBatch (ops : List WBOp) : List Nat := ops.foldl wbStep wbEmpty

/-- The entry bytes those calls append after the 12-byte header. -/
def opsBody : List WBOp → List Nat
  | [] => []
  | .put k v :: rest =>
    kTypeValue :: (encodeLengthPrefixed k
      ++ encodeLengthPrefixed v ++ opsBody rest)
  | .del k :: rest =>
    kTypeDeletion :: (encodeLengthPrefixed k ++ opsBody rest)

/-- Spec side: apply the operations to a memtable in order with
consecutive sequence numbers from `seq` (`u` the arena growth per
insertion). -/
def applyOps (mem : MemModel) (seq : Nat) (ops : List WBOp) (u : Nat) :
    MemModel :=
  match ops with
  | [] => mem
  | .put k v :: rest =>
    applyOps (memAdd mem seq kTypeValue k v u) (seq + 1) rest u
  | .del k :: rest =>
    applyOps (memAdd mem seq kTypeDeletion k [] u) (seq + 1) rest u

/-- `WriteBatch::Iterate` loop (src/write_batch.cpp lines 47-77)
specialised to `DBImpl::RecoveryHandler` (src/db_impl.cpp lines
433-454), whose `Put` and `Delete` are `mem_->Add(sequence_++, tag, key,
value-or-empty)`.  The model counts an iteration on success only; the
C++ increments `found` before parsing, but on a parse failure it
returns the corruption status and the counter is never read.  `u` is
the oracle-supplied arena growth per insertion. -/
def wbIterateLoop (u : Nat) (input : List Nat) (mem : MemModel)
    (seq found : Nat) : Status × MemModel × Nat :=
  match input with
  | [] => (Status.ok, mem, found)
  | tag :: rest =>
    if tag = kTypeValue then
      match h1 : parseLP rest with
      | some (k, rest1) =>
        match h2 : parseLP rest1 with
        | some (v, rest2) =>
          wbIterateLoop u rest2 (memAdd mem seq kTypeValue k v u)
            (seq + 1) (found + 1)
        | none => (Status.corruption "bad WriteBatch Put", mem, found)
      | none => (Status.corruption "bad WriteBatch Put", mem, found)
    else if tag = kTypeDeletion then
      match h1 : parseLP rest with
      | some (k, rest1) =>
        wbIterateLoop u rest1 (memAdd mem seq kTypeDeletion k [] u)
          (seq + 1) (found + 1)
      | none => (Status.corruption "bad WriteBatch Delete", mem, found)
    else (Status.corruption "unknown WriteBatch tag", mem, found)
termination_by input.length
decreasing_by
  all_goals simp only [List.length_cons]
  · have a1 := parseLP_length_le h1
    have a2 := parseLP_length_le h2
    omega
  · have a1 := parseLP_length_le h1
    omega

/-- `WriteBatch::Iterate` (src/write_batch.cpp lines 36-86) with the
recovery handler: header-size check, the loop, then the count check. -/
def wbIterate (u : Nat) (b : List Nat) (mem : MemModel) :
    Status × MemModel :=
  if b.length < 12 then
    (Status.corruption "malformed WriteBatch (too small)", mem)
  else
    match wbIterateLoop u (b.drop 12) mem (wbSequence b) 0 with
    | (s, mem2, found) =>
      if s.isOk then
        if found = wbCount b then (Status.ok, mem2)
        else (Status.corruption "WriteBatch has wrong count", mem2)
      else (s, mem2)

/-! ### The flush and write paths (src/db_impl.cpp) -/

/-- Modelled from the spec: outcomes of the environment operations the
flush and write paths depend on.  `Env::NewWritableFile`, the table
build, file `Close`/`Sync` and `log_->AddRecord` are I/O whose success
the model cannot decide, and the arena growth of one memtable insertion
depends on random skip-list heights; the oracle supplies these
outcomes, and the theorems quantify over it. -/
structure EnvOracle where
  newLogFileErr : Option Status
  buildErr : Option Status
  buildSize : Nat
  newLogCloseErr : Option Status
  oldLogCloseErr : Option Status
  addRecordErr : Option Status
  syncErr : Option Status
  usagePerAdd : Nat
deriving DecidableEq, Repr

/-- `DBImpl::FlushMemTable` (src/db_impl.cpp lines 720-804) with
`BuildTable` (lines 35-106) folded in: allocate a new log number and
open the new log, swap `mem_` into `imm_`, allocate a table number and
build the table from the immutable memtable.  On an empty memtable the
build returns OK with size 0 and creates no file; on a build failure
`BuildTable` has already removed the partial table file, and the flush
closes and removes the new log and restores the previous
`mem`/`imm`/log before returning the failure.  On success it installs
the table (when its size is positive), drops `imm`, and closes and
removes the old log. -/
def flushMemTable (o : EnvOracle) (st : DBState) : Status × DBState :=
  match st.imm, st.log with
  | some _, _ =>
    (Status.invalidArgument "immutable memtable already set", st)
  | none, none => (Status.invalidArgument "log file not open", st)
  | none, some oldLog =>
    let newLogNumber := st.nextFileNumber
    match o.newLogFileErr with
    | some e => (e, { st with nextFileNumber := st.nextFileNumber + 1 })
    | none =>
      let tableNumber := st.nextFileNumber + 1
      let st2 : DBState :=
        { st with
          nextFileNumber := st.nextFileNumber + 2
          disk := st.disk ++ [DiskName.logF newLogNumber]
          log := some ⟨newLogNumber, [], 0⟩
          imm := some st.mem
          mem := ⟨[], 0⟩ }
      match (if st.mem.entries.isEmpty then none else o.buildErr) with
      | some e =>
        let restored : DBState :=
          { st2 with
            disk := st2.disk.filter (fun d => d != DiskName.logF newLogNumber)
            log := some oldLog
            imm := none
            mem := st.mem }
        match o.newLogCloseErr with
        | some ce => (ce, restored)
        | none => (e, restored)
      | none =>
        let built : Bool := !st.mem.entries.isEmpty
        let st3 : DBState :=
          { st2 with
            disk := st2.disk ++
              (if built then [DiskName.tableF tableNumber] else [])
            files := st2.files ++
              (if built ∧ 0 < o.buildSize then
                [⟨tableNumber, o.buildSize, st.mem.entries⟩] else [])
            imm := none }
        match o.oldLogCloseErr with
        | some ce => (ce, st3)
        | none =>
          (Status.ok,
           { st3 with
             disk := st3.disk.filter
               (fun d => d != DiskName.logF oldLog.number) })

/-- `DBImpl::Write` (src/db_impl.cpp lines 1022-1060): an empty batch
returns OK untouched; otherwise stamp the engine sequence into the
header and advance the sequence by the count (64-bit), append the
stamped bytes to the WAL (fsync when `options.sync`), then apply the
batch to the active memtable, and flush when the memtable usage has
exceeded `write_buffer_size`. -/
def dbWrite (o : EnvOracle) (wopts : DBWriteOptions) (batch : List Nat)
    (st : DBState) : Status × DBState :=
  if wbCount batch = 0 then (Status.ok, st)
  else
    match st.log with
    | none => (Status.invalidArgument "log file not open", st)
    | some lf =>
      let batch1 := wbSetSequence batch st.sequence
      let st1 : DBState :=
        { st with sequence := (st.sequence + wbCount batch) % 2 ^ 64 }
      match o.addRecordErr with
      | some e => (e, st1)
      | none =>
        let lf1 : LogFileModel := { lf with records := lf.records ++ [batch1] }
        match (if wopts.sync then o.syncErr else none) with
        | some e => (e, { st1 with log := some lf1 })
        | none =>
          let lf2 : LogFileModel :=
            if wopts.sync then { lf1 with syncedLen := lf1.records.length }
            else lf1
          let st2 : DBState := { st1 with log := some lf2 }
          match wbIterate o.usagePerAdd batch1 st2.mem with
          | (s, mem2) =>
            let st3 : DBState := { st2 with mem := mem2 }
            if s.isOk then
              if st3.writeBufferSize < mem2.usage then flushMemTable o st3
              else (Status.ok, st3)
            else (s, st3)

/-! ### Batch structure lemmas -/

theorem decodeFixedLE_lt : ∀ (l : List Nat),
    decodeFixedLE l < 2 ^ (8 * l.length) := by
  intro l
  induction l with
  | nil => simp [decodeFixedLE]
  | cons b rest ih =>
    rw [decodeFixedLE]
    have h1 : b % 256 < 256 := Nat.mod_lt _ (by norm_num)
    have h2 : 2 ^ (8 * (b :: rest).length)
        = 256 * 2 ^ (8 * rest.length) := by
      rw [List.length_cons,
        show 8 * (rest.length + 1) = 8 + 8 * rest.length by ring,
        Nat.pow_add]
    omega

theorem wbCount_lt (b : List Nat) : wbCount b < 2 ^ 32 := by
  rw [wbCount, decodeFixed32]
  have h := decodeFixedLE_lt ((b.drop 8).take 4)
  have hlen : ((b.drop 8).take 4).length ≤ 4 := by
    simp [List.length_take]
  exact lt_of_lt_of_le h (Nat.pow_le_pow_right (by norm_num) (by omega))

theorem wbSetCount_parts (b : List Nat) (n : Nat) (hb : 12 ≤ b.length) :
    (wbSetCount b n).take 8 = b.take 8 ∧
    wbCount (wbSetCount b n) = n % 2 ^ 32 ∧
    (wbSetCount b n).drop 12 = b.drop 12 ∧
    (wbSetCount b n).length = b.length := by
  have h8 : (b.take 8).length = 8 := by
    rw [List.length_take]; omega
  have he4 : (encodeFixed32 n).length = 4 := by
    rw [encodeFixed32, encodeFixedLE_length]
  have h12 : (b.take 8 ++ encodeFixed32 n).length = 12 := by
    rw [List.length_append, h8, he4]
  refine ⟨?_, ?_, ?_, ?_⟩
  · rw [wbSetCount, List.append_assoc,
      List.take_append_of_le_length (by omega),
      List.take_of_length_le (by omega)]
  · rw [wbCount, wbSetCount, List.append_assoc, List.drop_left' h8,
      decodeFixed32, List.take_append_of_le_length (by omega),
      List.take_of_length_le (by omega), encodeFixed32,
      decodeFixedLE_encodeFixedLE]
  · rw [wbSetCount, List.drop_left' h12]
  · rw [wbSetCount, List.length_append, List.length_append, h8, he4,
      List.length_drop]
    omega

theorem wbCount_append (b r : List Nat) (hb : 12 ≤ b.length) :
    wbCount (b ++ r) = wbCount b := by
  rw [wbCount, wbCount, List.drop_append_of_le_length (by omega),
    decodeFixed32, decodeFixed32,
    List.take_append_of_le_length (by rw [List.length_drop]; omega)]

theorem opsBody_cons (op : WBOp) (rest : List WBOp) :
    opsBody (op :: rest) = opsBody [op] ++ opsBody rest := by
  cases op <;> simp [opsBody]

theorem wbStep_parts (b : List Nat) (op : WBOp) (hb : 12 ≤ b.length) :
    12 ≤ (wbStep b op).length ∧
    (wbStep b op).take 8 = b.take 8 ∧
    wbCount (wbStep b op) = (wbCount b + 1) % 2 ^ 32 ∧
    (wbStep b op).drop 12 = b.drop 12 ++ opsBody [op] := by
  obtain ⟨ht, hc, hd, hl⟩ := wbSetCount_parts b (wbCount b + 1) hb
  cases op with
  | put k v =>
    show 12 ≤ (wbPut b k v).length ∧ (wbPut b k v).take 8 = b.take 8 ∧
      wbCount (wbPut b k v) = (wbCount b + 1) % 2 ^ 32 ∧
      (wbPut b k v).drop 12 = b.drop 12 ++ opsBody [WBOp.put k v]
    rw [wbPut, List.append_assoc, List.append_assoc]
    refine ⟨?_, ?_, ?_, ?_⟩
    · rw [List.length_append]
      omega
    · rw [List.take_append_of_le_length (by omega), ht]
    · rw [wbCount_append _ _ (by omega), hc]
    · rw [List.drop_append_of_le_length (by omega), hd]
      simp [opsBody]
  | del k =>
    show 12 ≤ (wbDelete b k).length ∧ (wbDelete b k).take 8 = b.take 8 ∧
      wbCount (wbDelete b k) = (wbCount b + 1) % 2 ^ 32 ∧
      (wbDelete b k).drop 12 = b.drop 12 ++ opsBody [WBOp.del k]
    rw [wbDelete, List.append_assoc]
    refine ⟨?_, ?_, ?_, ?_⟩
    · rw [List.length_append]
      omega
    · rw [List.take_append_of_le_length (by omega), ht]
    · rw [wbCount_append _ _ (by omega), hc]
    · rw [List.drop_append_of_le_length (by omega), hd]
      simp [opsBody]

theorem opsToBatch_aux : ∀ (ops : List WBOp) (b : List Nat),
    12 ≤ b.length →
    12 ≤ (List.foldl wbStep b ops).length ∧
    (List.foldl wbStep b ops).take 8 = b.take 8 ∧
    wbCount (List.foldl wbStep b ops) = (wbCount b + ops.length) % 2 ^ 32 ∧
    (List.foldl wbStep b ops).drop 12 = b.drop 12 ++ opsBody ops := by
  intro ops
  induction ops with
  | nil =>
    intro b hb
    refine ⟨hb, rfl, ?_, by simp [opsBody]⟩
    rw [List.foldl_nil, List.length_nil, Nat.add_zero,
      Nat.mod_eq_of_lt (wbCount_lt b)]
  | cons op rest ih =>
    intro b hb
    obtain ⟨s1, s2, s3, s4⟩ := wbStep_parts b op hb
    obtain ⟨i1, i2, i3, i4⟩ := ih (wbStep b op) s1
    rw [List.foldl_cons]
    refine ⟨i1, i2.trans s2, ?_, ?_⟩
    · rw [i3, s3, Nat.mod_add_mod, List.length_cons]
      congr 1
      omega
    · rw [i4, s4, List.append_assoc, ← opsBody_cons]

theorem opsToBatch_parts (ops : List WBOp) :
    12 ≤ (opsToBatch ops).length ∧
    wbCount (opsToBatch ops) = ops.length % 2 ^ 32 ∧
    (opsToBatch ops).drop 12 = opsBody ops := by
  obtain ⟨h1, _, h3, h4⟩ := opsToBatch_aux ops wbEmpty (by simp [wbEmpty])
  have h0 : wbCount wbEmpty = 0 := rfl
  have hd : wbEmpty.drop 12 = [] := rfl
  rw [opsToBatch] at *
  exact ⟨h1, by rw [h3, h0, Nat.zero_add],
    by rw [h4, hd, List.nil_append]⟩

theorem wbSetSequence_parts (b : List Nat) (sq : Nat) (hb : 12 ≤ b.length)
    (hsq : sq < 2 ^ 64) :
    wbSequence (wbSetSequence b sq) = sq ∧
    wbCount (wbSetSequence b sq) = wbCount b ∧
    (wbSetSequence b sq).drop 12 = b.drop 12 ∧
    12 ≤ (wbSetSequence b sq).length := by
  have h8 : (encodeFixed64 sq).length = 8 := by
    rw [encodeFixed64, encodeFixedLE_length]
  refine ⟨?_, ?_, ?_, ?_⟩
  · rw [wbSequence, wbSetSequence, decodeFixed64,
      List.take_append_of_le_length (by omega),
      List.take_of_length_le (by omega), encodeFixed64,
      decodeFixedLE_encodeFixedLE, Nat.mod_eq_of_lt (by norm_num at hsq ⊢; omega)]
  · rw [wbCount, wbSetSequence, List.drop_left' h8, wbCount]
  · rw [wbSetSequence, List.drop_append_eq_append_drop, h8,
      List.drop_of_length_le (by omega), List.nil_append, List.drop_drop]
  · rw [wbSetSequence, List.length_append, h8, List.length_drop]
    omega

/-! ### The iterate loop on a well-built body -/

theorem wbIterateLoop_put (u : Nat) (k v r : List Nat) (mem : MemModel)
    (seq found : Nat) (hk : k.length < 2 ^ 32) (hv : v.length < 2 ^ 32) :
    wbIterateLoop u
        (kTypeValue :: (encodeLengthPrefixed k
          ++ (encodeLengthPrefixed v ++ r))) mem seq found
      = wbIterateLoop u r (memAdd mem seq kTypeValue k v u)
          (seq + 1) (found + 1) := by
  rw [wbIterateLoop]
  rw [if_pos rfl]
  split
  · rename_i k1 rest1 heq
    rw [parseLP_encode k _ hk] at heq
    simp only [Option.some.injEq, Prod.mk.injEq] at heq
    obtain ⟨hk1, hr1⟩ := heq
    subst hk1
    subst hr1
    split
    · rename_i v1 rest2 heq2
      rw [parseLP_encode v _ hv] at heq2
      simp only [Option.some.injEq, Prod.mk.injEq] at heq2
      obtain ⟨hv1, hr2⟩ := heq2
      subst hv1
      subst hr2
      rfl
    · rename_i heq2
      rw [parseLP_encode v _ hv] at heq2
      simp at heq2
  · rename_i heq
    rw [parseLP_encode k _ hk] at heq
    simp at heq

theorem wbIterateLoop_del (u : Nat) (k r : List Nat) (mem : MemModel)
    (seq found : Nat) (hk : k.length < 2 ^ 32) :
    wbIterateLoop u
        (kTypeDeletion :: (encodeLengthPrefixed k ++ r)) mem seq found
      = wbIterateLoop u r (memAdd mem seq kTypeDeletion k [] u)
          (seq + 1) (found + 1) := by
  rw [wbIterateLoop]
  rw [if_neg (by rw [kTypeDeletion, kTypeValue]; omega), if_pos rfl]
  split
  · rename_i k1 rest1 heq
    rw [parseLP_encode k _ hk] at heq
    simp only [Option.some.injEq, Prod.mk.injEq] at heq
    obtain ⟨hk1, hr1⟩ := heq
    subst hk1
    subst hr1
    rfl
  · rename_i heq
    rw [parseLP_encode k _ hk] at heq
    simp at heq

/-- Length bounds a batch operation must satisfy for its varint32
length prefixes. -/
def opFits : WBOp → Prop
  | .put k v => k.length < 2 ^ 32 ∧ v.length < 2 ^ 32
  | .del k => k.length < 2 ^ 32

instance (op : WBOp) : Decidable (opFits op) := by
  cases op <;> (unfold opFits; infer_instance)

theorem wbIterateLoop_opsBody (u : Nat) : ∀ (ops : List WBOp)
    (mem : MemModel) (seq found : Nat), (∀ op ∈ ops, opFits op) →
    wbIterateLoop u (opsBody ops) mem seq found
      = (Status.ok, applyOps mem seq ops u, found + ops.length) := by
  intro ops
  induction ops with
  | nil =>
    intro mem seq found _
    rw [show opsBody [] = [] from rfl, wbIterateLoop]
    rfl
  | cons op rest ih =>
    intro mem seq found hfits
    have hrest : ∀ x ∈ rest, opFits x := fun x hx => hfits x (by simp [hx])
    cases op with
    | put k v =>
      have hk := (hfits (.put k v) (by simp)).1
      have hv := (hfits (.put k v) (by simp)).2
      rw [opsBody, List.append_assoc,
        wbIterateLoop_put u k v _ mem seq found hk hv,
        show applyOps mem seq (WBOp.put k v :: rest) u
          = applyOps (memAdd mem seq kTypeValue k v u) (seq + 1) rest u
          from rfl,
        ih _ _ _ hrest, List.length_cons,
        show found + 1 + rest.length = found + (rest.length + 1) by omega]
    | del k =>
      have hk := hfits (.del k) (by simp)
      rw [opsBody, wbIterateLoop_del u k _ mem seq found hk,
        show applyOps mem seq (WBOp.del k :: rest) u
          = applyOps (memAdd mem seq kTypeDeletion k [] u) (seq + 1) rest u
          from rfl,
        ih _ _ _ hrest, List.length_cons,
        show found + 1 + rest.length = found + (rest.length + 1) by omega]

/-- `ApplyBatch` (src/db_impl.cpp lines 519-523) on a built batch
stamped with sequence `sq`: every operation lands in the memtable with
consecutive sequence numbers from `sq`, and the final count check
passes. -/
theorem wbIterate_opsToBatch (u sq : Nat) (ops : List WBOp)
    (mem : MemModel) (hsq : sq < 2 ^ 64) (hcnt : ops.length < 2 ^ 32)
    (hfits : ∀ op ∈ ops, opFits op) :
    wbIterate u (wbSetSequence (opsToBatch ops) sq) mem
      = (Status.ok, applyOps mem sq ops u) := by
  obtain ⟨hl, hc, hd⟩ := opsToBatch_parts ops
  obtain ⟨hs1, hs2, hs3, hs4⟩ :=
    wbSetSequence_parts (opsToBatch ops) sq hl hsq
  rw [wbIterate, if_neg (by omega), hs3, hd, hs1,
    wbIterateLoop_opsBody u ops mem sq 0 hfits]
  show (if Status.ok.isOk = true then
      if 0 + ops.length = wbCount (wbSetSequence (opsToBatch ops) sq) then
        (Status.ok, applyOps mem sq ops u)
      else (Status.corruption "WriteBatch has wrong count",
        applyOps mem sq ops u)
    else (Status.ok, applyOps mem sq ops u))
    = (Status.ok, applyOps mem sq ops u)
  rw [if_pos (show Status.ok.isOk = true from rfl), hs2, hc,
    Nat.mod_eq_of_lt hcnt, Nat.zero_add, if_pos rfl]

/-- **C2.** `DBImpl::Write` on a batch built by `Put`/`Delete` calls:
an empty batch returns OK and leaves the state untouched; otherwise the
engine\'s current sequence number is stamped into the batch header, the
engine sequence advances by exactly the batch\'s entry count, and the
stamped batch bytes are appended to the write-ahead log (fsynced exactly
when `options.sync`) before the batch is applied to the active
memtable — in particular a failed WAL append leaves the memtable
untouched. -/
theorem dbWrite_spec (o : EnvOracle) (wopts : DBWriteOptions)
    (ops : List WBOp) (st : DBState) (lf : LogFileModel)
    (hlog : st.log = some lf) (hfits : ∀ op ∈ ops, opFits op)
    (hcnt : ops.length < 2 ^ 32)
    (hseq : st.sequence + ops.length < 2 ^ 64) :
    (ops = [] → dbWrite o wopts (opsToBatch ops) st = (Status.ok, st)) ∧
    (wbSequence (wbSetSequence (opsToBatch ops) st.sequence)
      = st.sequence) ∧
    (ops ≠ [] → o.addRecordErr = none →
      (if wopts.sync then o.syncErr else none) = none →
      (applyOps st.mem st.sequence ops o.usagePerAdd).usage
          ≤ st.writeBufferSize →
      dbWrite o wopts (opsToBatch ops) st
        = (Status.ok,
           { st with
             sequence := st.sequence + ops.length
             mem := applyOps st.mem st.sequence ops o.usagePerAdd
             log := some { lf with
               records := lf.records
                 ++ [wbSetSequence (opsToBatch ops) st.sequence]
               syncedLen := if wopts.sync then lf.records.length + 1
                 else lf.syncedLen } })) ∧
    (∀ e, ops ≠ [] → o.addRecordErr = some e →
      dbWrite o wopts (opsToBatch ops) st
        = (e, { st with sequence := st.sequence + ops.length })) := by
  obtain ⟨hl, hc, hd⟩ := opsToBatch_parts ops
  have hsq64 : st.sequence < 2 ^ 64 := by omega
  obtain ⟨hs1, hs2, hs3, hs4⟩ :=
    wbSetSequence_parts (opsToBatch ops) st.sequence hl hsq64
  have hcval : wbCount (opsToBatch ops) = ops.length := by
    rw [hc, Nat.mod_eq_of_lt hcnt]
  have hmod : (st.sequence + ops.length) % 2 ^ 64
      = st.sequence + ops.length := Nat.mod_eq_of_lt hseq
  refine ⟨?_, hs1, ?_, ?_⟩
  · intro h0
    subst h0
    rw [dbWrite, if_pos (by rw [hcval]; rfl)]
  · intro hne hadd hsync husage
    have hcnt0 : wbCount (opsToBatch ops) ≠ 0 := by
      rw [hcval]
      intro hz
      exact hne (List.eq_nil_of_length_eq_zero hz)
    have hiter := wbIterate_opsToBatch o.usagePerAdd st.sequence ops st.mem
      hsq64 hcnt hfits
    have hnof : ¬ st.writeBufferSize
        < (applyOps st.mem st.sequence ops o.usagePerAdd).usage := by
      omega
    cases hsy : wopts.sync with
    | false =>
      simp only [dbWrite, if_neg hcnt0, hlog, hadd, hsy, hiter, Status.isOk]
      simp [hnof, hcval, hmod] <;> omega
    | true =>
      rw [hsy] at hsync
      simp only [if_true] at hsync
      simp only [dbWrite, if_neg hcnt0, hlog, hadd, hsy, hsync, hiter,
        Status.isOk]
      simp [hnof, hcval, hmod] <;> omega
  · intro e hne hadd
    have hcnt0 : wbCount (opsToBatch ops) ≠ 0 := by
      rw [hcval]
      intro hz
      exact hne (List.eq_nil_of_length_eq_zero hz)
    simp only [dbWrite, if_neg hcnt0, hlog, hadd]
    simp [hcval, hmod] <;> omega

/-- Witness for C2: one `Put` on a small open database, no sync. -/
theorem dbWrite_spec_witness :
    ([WBOp.put [97] [98]] : List WBOp) ≠ [] ∧
    dbWrite ⟨none, none, 1, none, none, none, none, 1⟩ ⟨false⟩
        (opsToBatch [WBOp.put [97] [98]])
        ⟨3, ⟨[], 0⟩, none, [], some ⟨7, [], 0⟩, 9, 100, [DiskName.logF 7]⟩
      = (Status.ok,
         { sequence := 4
           mem := applyOps ⟨[], 0⟩ 3 [WBOp.put [97] [98]] 1
           imm := none
           files := []
           log := some ⟨7,
             [wbSetSequence (opsToBatch [WBOp.put [97] [98]]) 3], 0⟩
           nextFileNumber := 9
           writeBufferSize := 100
           disk := [DiskName.logF 7] }) := by
  have h := (dbWrite_spec ⟨none, none, 1, none, none, none, none, 1⟩
    ⟨false⟩ [WBOp.put [97] [98]]
    ⟨3, ⟨[], 0⟩, none, [], some ⟨7, [], 0⟩, 9, 100, [DiskName.logF 7]⟩
    ⟨7, [], 0⟩ rfl (by decide) (by decide) (by decide)).2.2.1
    (by decide) rfl rfl (by decide)
  exact ⟨by decide, h⟩

/-! ### Flush failure behaviour (C3) -/

theorem sortedInsert_length (l : List Entry) (e : Entry) :
    (sortedInsert l e).length = l.length + 1 := by
  induction l with
  | nil => rfl
  | cons x xs ih =>
    rw [sortedInsert]
    split
    · simp
    · simp [ih]

theorem applyOps_entries_length : ∀ (ops : List WBOp) (mem : MemModel)
    (seq u : Nat),
    (applyOps mem seq ops u).entries.length
      = mem.entries.length + ops.length := by
  intro ops
  induction ops with
  | nil => intro mem seq u; rfl
  | cons op rest ih =>
    intro mem seq u
    cases op with
    | put k v =>
      show (applyOps (memAdd mem seq kTypeValue k v u)
          (seq + 1) rest u).entries.length = _
      rw [ih]
      show (sortedInsert mem.entries ⟨k, seq, kTypeValue, v⟩).length
          + rest.length = _
      rw [sortedInsert_length, List.length_cons]
      omega
    | del k =>
      show (applyOps (memAdd mem seq kTypeDeletion k [] u)
          (seq + 1) rest u).entries.length = _
      rw [ih]
      show (sortedInsert mem.entries ⟨k, seq, kTypeDeletion, []⟩).length
          + rest.length = _
      rw [sortedInsert_length, List.length_cons]
      omega

theorem applyOps_entries_ne_nil (ops : List WBOp) (mem : MemModel)
    (seq u : Nat) (h : ops ≠ []) :
    (applyOps mem seq ops u).entries ≠ [] := by
  have hl := applyOps_entries_length ops mem seq u
  intro hnil
  rw [hnil] at hl
  simp only [List.length_nil] at hl
  have : ops.length ≠ 0 := fun hz => h (List.eq_nil_of_length_eq_zero hz)
  omega

theorem filter_ne_of_not_mem {α : Type} [DecidableEq α] (l : List α)
    (x : α) (hx : x ∉ l) :
    (l ++ [x]).filter (fun d => d != x) = l := by
  rw [List.filter_append]
  have h1 : l.filter (fun d => d != x) = l :=
    List.filter_eq_self.mpr (fun a ha => by
      simp only [bne_iff_ne, ne_eq]
      intro hax
      exact hx (hax ▸ ha))
  have h2 : ([x].filter (fun d => d != x)) = [] := by simp
  rw [h1, h2, List.append_nil]

/-- When `BuildTable` fails, `FlushMemTable` restores the previous
`mem`/`imm`/log assignment, the partial table and the new log file are
gone from the directory, and the build failure is returned; only the
file-number counter has advanced. -/
theorem flushMemTable_build_failure (o : EnvOracle) (st2 : DBState)
    (oldLog : LogFileModel) (e : Status)
    (himm2 : st2.imm = none) (hlog2 : st2.log = some oldLog)
    (hne2 : st2.mem.entries ≠ [])
    (hnew : o.newLogFileErr = none) (hbuild : o.buildErr = some e)
    (hclose : o.newLogCloseErr = none)
    (hdisk2 : DiskName.logF st2.nextFileNumber ∉ st2.disk) :
    flushMemTable o st2
      = (e, { st2 with nextFileNumber := st2.nextFileNumber + 2 }) := by
  obtain ⟨sq, mm, im, fl, lg, nf, wb, dk⟩ := st2
  simp only at himm2 hlog2 hne2 hdisk2
  subst himm2
  subst hlog2
  have hie : mm.entries.isEmpty = false := by
    rcases h : mm.entries with _ | ⟨a, as⟩
    · exact absurd h hne2
    · rfl
  simp only [flushMemTable, hnew, hie, Bool.false_eq_true, if_false,
    hbuild, hclose]
  rw [filter_ne_of_not_mem dk _ hdisk2]

/-- A write whose batch application pushes the memtable usage over
`write_buffer_size` hands off to `FlushMemTable` on the post-append
state: WAL record appended (and fsynced when requested) and the batch
already applied to the memtable. -/
theorem dbWrite_reaches_flush (o : EnvOracle) (wopts : DBWriteOptions)
    (ops : List WBOp) (st : DBState) (lf : LogFileModel)
    (hlog : st.log = some lf) (hfits : ∀ op ∈ ops, opFits op)
    (hcnt : ops.length < 2 ^ 32)
    (hseq : st.sequence + ops.length < 2 ^ 64) (hne : ops ≠ [])
    (hadd : o.addRecordErr = none)
    (hsync : (if wopts.sync then o.syncErr else none) = none)
    (htrig : st.writeBufferSize
      < (applyOps st.mem st.sequence ops o.usagePerAdd).usage) :
    dbWrite o wopts (opsToBatch ops) st
      = flushMemTable o
          { st with
            sequence := st.sequence + ops.length
            mem := applyOps st.mem st.sequence ops o.usagePerAdd
            log := some { lf with
              records := lf.records
                ++ [wbSetSequence (opsToBatch ops) st.sequence]
              syncedLen := if wopts.sync then lf.records.length + 1
                else lf.syncedLen } } := by
  obtain ⟨hl, hc, hd⟩ := opsToBatch_parts ops
  have hsq64 : st.sequence < 2 ^ 64 := by omega
  have hcval : wbCount (opsToBatch ops) = ops.length := by
    rw [hc, Nat.mod_eq_of_lt hcnt]
  have hmod : (st.sequence + ops.length) % 2 ^ 64
      = st.sequence + ops.length := Nat.mod_eq_of_lt hseq
  have hcnt0 : wbCount (opsToBatch ops) ≠ 0 := by
    rw [hcval]
    intro hz
    exact hne (List.eq_nil_of_length_eq_zero hz)
  have hiter := wbIterate_opsToBatch o.usagePerAdd st.sequence ops st.mem
    hsq64 hcnt hfits
  cases hsy : wopts.sync with
  | false =>
    simp only [dbWrite, if_neg hcnt0, hlog, hadd, hsy, hiter, Status.isOk]
    simp [htrig, hcval, hmod]
    have hmod2 : (st.sequence + ops.length) % 18446744073709551616
        = st.sequence + ops.length := hmod
    rw [hmod2]
  | true =>
    rw [hsy] at hsync
    simp only [if_true] at hsync
    simp only [dbWrite, if_neg hcnt0, hlog, hadd, hsy, hsync, hiter,
      Status.isOk]
    simp [htrig, hcval, hmod]
    have hmod2 : (st.sequence + ops.length) % 18446744073709551616
        = st.sequence + ops.length := hmod
    rw [hmod2]

/-- **C3** (amended).  If the flush fails between allocating the new
file number and installing the new sorted table, the previous
`mem`/`imm`/log assignment is restored and the partial files are
removed (only the file-number counter has moved), but the write that
triggered the flush returns the flush failure status, not OK; the
write\'s own WAL append and memtable insert are retained in the state
the failed flush hands back. -/
theorem flush_failure_spec (o : EnvOracle) (wopts : DBWriteOptions)
    (ops : List WBOp) (st : DBState) (lf : LogFileModel) (e : Status)
    (hlog : st.log = some lf) (himm : st.imm = none)
    (hfits : ∀ op ∈ ops, opFits op) (hcnt : ops.length < 2 ^ 32)
    (hseq : st.sequence + ops.length < 2 ^ 64)
    (hnew : o.newLogFileErr = none) (hbuild : o.buildErr = some e)
    (hclose : o.newLogCloseErr = none)
    (hdisk : DiskName.logF st.nextFileNumber ∉ st.disk)
    (hne : ops ≠ []) (hadd : o.addRecordErr = none)
    (hsync : (if wopts.sync then o.syncErr else none) = none)
    (htrig : st.writeBufferSize
      < (applyOps st.mem st.sequence ops o.usagePerAdd).usage) :
    (∀ st2 : DBState, ∀ oldLog : LogFileModel, st2.imm = none →
      st2.log = some oldLog → st2.mem.entries ≠ [] →
      DiskName.logF st2.nextFileNumber ∉ st2.disk →
      flushMemTable o st2
        = (e, { st2 with nextFileNumber := st2.nextFileNumber + 2 })) ∧
    dbWrite o wopts (opsToBatch ops) st
      = (e, { st with
          sequence := st.sequence + ops.length
          mem := applyOps st.mem st.sequence ops o.usagePerAdd
          log := some { lf with
            records := lf.records
              ++ [wbSetSequence (opsToBatch ops) st.sequence]
            syncedLen := if wopts.sync then lf.records.length + 1
              else lf.syncedLen }
          nextFileNumber := st.nextFileNumber + 2 }) := by
  refine ⟨fun st2 oldLog h1 h2 h3 h4 =>
    flushMemTable_build_failure o st2 oldLog e h1 h2 h3 hnew hbuild
      hclose h4, ?_⟩
  rw [dbWrite_reaches_flush o wopts ops st lf hlog hfits hcnt hseq hne
    hadd hsync htrig]
  rw [flushMemTable_build_failure o
      { st with
        sequence := st.sequence + ops.length
        mem := applyOps st.mem st.sequence ops o.usagePerAdd
        log := some { lf with
          records := lf.records
            ++ [wbSetSequence (opsToBatch ops) st.sequence]
          syncedLen := if wopts.sync then lf.records.length + 1
            else lf.syncedLen } }
      { lf with
        records := lf.records
          ++ [wbSetSequence (opsToBatch ops) st.sequence]
        syncedLen := if wopts.sync then lf.records.length + 1
          else lf.syncedLen }
      e himm rfl (applyOps_entries_ne_nil ops st.mem st.sequence
        o.usagePerAdd hne) hnew hbuild hclose hdisk]

/-- The oracle for the C3 counterexample: the table build fails with an
I/O error; everything else succeeds, each insertion charges one byte. -/
def c3Oracle : EnvOracle :=
  ⟨none, some (Status.ioError "disk full"), 1, none, none, none, none, 1⟩

/-- The state for the C3 counterexample: open log number 7,
`write_buffer_size` 0 so any insertion triggers a flush. -/
def c3State : DBState :=
  ⟨3, ⟨[], 0⟩, none, [], some ⟨7, [], 0⟩, 9, 0, [DiskName.logF 7]⟩

/-- **C3 counterexample.**  A write triggers a flush whose build fails:
the write returns the flush\'s I/O error, not OK as claimed. -/
theorem write_flush_failure_not_ok :
    (dbWrite c3Oracle ⟨false⟩ (opsToBatch [WBOp.put [97] [98]]) c3State).1
      = Status.ioError "disk full" ∧
    Status.ioError "disk full" ≠ Status.ok := by
  refine ⟨?_, by decide⟩
  rw [dbWrite_reaches_flush c3Oracle ⟨false⟩ [WBOp.put [97] [98]] c3State
      ⟨7, [], 0⟩ rfl (by decide) (by decide) (by decide) (by decide) rfl
      rfl (by decide)]
  show (flushMemTable c3Oracle
      ⟨4, applyOps ⟨[], 0⟩ 3 [WBOp.put [97] [98]] 1, none, [],
        some ⟨7, [wbSetSequence (opsToBatch [WBOp.put [97] [98]]) 3], 0⟩,
        9, 0, [DiskName.logF 7]⟩).1 = Status.ioError "disk full"
  rw [flushMemTable_build_failure c3Oracle
      ⟨4, applyOps ⟨[], 0⟩ 3 [WBOp.put [97] [98]] 1, none, [],
        some ⟨7, [wbSetSequence (opsToBatch [WBOp.put [97] [98]]) 3], 0⟩,
        9, 0, [DiskName.logF 7]⟩
      ⟨7, [wbSetSequence (opsToBatch [WBOp.put [97] [98]]) 3], 0⟩
      (Status.ioError "disk full") rfl rfl (by decide) rfl rfl rfl
      (by decide)]

/-- Witness for the amended C3 theorem at a concrete failing flush. -/
theorem flush_failure_spec_witness :
    ([WBOp.del [99]] : List WBOp) ≠ [] ∧
    dbWrite ⟨none, some (Status.ioError "w"), 1, none, none, none, none, 2⟩
        ⟨false⟩ (opsToBatch [WBOp.del [99]])
        ⟨5, ⟨[], 0⟩, none, [], some ⟨4, [], 0⟩, 6, 1, [DiskName.logF 4]⟩
      = (Status.ioError "w",
         { sequence := 5 + 1
           mem := applyOps ⟨[], 0⟩ 5 [WBOp.del [99]] 2
           imm := none
           files := []
           log := some ⟨4, [wbSetSequence (opsToBatch [WBOp.del [99]]) 5],
             0⟩
           nextFileNumber := 6 + 2
           writeBufferSize := 1
           disk := [DiskName.logF 4] }) := by
  have h := (flush_failure_spec
    ⟨none, some (Status.ioError "w"), 1, none, none, none, none, 2⟩
    ⟨false⟩ [WBOp.del [99]]
    ⟨5, ⟨[], 0⟩, none, [], some ⟨4, [], 0⟩, 6, 1, [DiskName.logF 4]⟩
    ⟨4, [], 0⟩ (Status.ioError "w") rfl rfl (by decide) (by decide)
    (by decide) rfl rfl rfl (by decide) (by decide) rfl rfl
    (by decide)).2
  exact ⟨by decide, h⟩

/-! ### Snapshot surface (src/db_impl.cpp lines 1062-1090) -/

/-- The result of `DBImpl::NewIterator` as far as this claim needs:
either the error iterator for a rejected snapshot, or the merged
database iterator reading at the given snapshot (its traversal
behaviour is beyond this claim). -/
inductive IterResult where
  | errorIter (s : Status)
  | dbIter (snapshot : Nat)
deriving DecidableEq, Repr

/-- `DBImpl::NewIterator` (src/db_impl.cpp lines 1062-1085): a non-null
`read_options.snapshot` yields
`NewErrorIterator(Status::NotSupported("snapshot"))`; otherwise the
merged iterator reads at `sequence_ == 0 ? 0 : sequence_ - 1`. -/
def dbNewIterator (st : DBState) (opts : DBReadOptions) : IterResult :=
  if opts.snapshot.isSome then
    IterResult.errorIter (Status.notSupported "snapshot")
  else IterResult.dbIter (dbSnapshot st)

/-- `DBImpl::GetSnapshot` (src/db_impl.cpp line 1088) returns
`nullptr`. -/
def dbGetSnapshot (_st : DBState) : Option Unit := none

/-- The movement calls of the `Iterator` interface
(include/iterator.h). -/
inductive IterOp where
  | seekToFirst
  | seekToLast
  | seek (k : List Nat)
  | next
  | prev
deriving DecidableEq, Repr

/-- Modelled from the spec: `NewErrorIterator` is declared in
include/iterator.h but iterator.cpp is not part of src/; per the
interface documentation it is an empty iterator with the given status:
no movement makes it valid and its status never changes. -/
structure EmptyIter where
  status : Status
deriving DecidableEq, Repr

def emptyIterStep (it : EmptyIter) (_op : IterOp) : EmptyIter := it

def emptyIterValid (_it : EmptyIter) : Bool := false

/-- **C10.**  Explicit snapshots are rejected at the iterator surface:
`GetSnapshot` always returns null, and `new_iterator` called with a
non-null snapshot in the read options returns the error iterator
carrying `NotSupported("snapshot")`, which is never valid and keeps
that status under every sequence of movement operations. -/
theorem snapshot_interface_rejected (st : DBState) (opts : DBReadOptions)
    (snap : Nat) (hs : opts.snapshot = some snap) :
    dbGetSnapshot st = none ∧
    dbNewIterator st opts
      = IterResult.errorIter (Status.notSupported "snapshot") ∧
    (∀ iops : List IterOp,
      emptyIterValid
          (iops.foldl emptyIterStep ⟨Status.notSupported "snapshot"⟩)
        = false ∧
      (iops.foldl emptyIterStep
          ⟨Status.notSupported "snapshot"⟩).status
        = Status.notSupported "snapshot") := by
  refine ⟨rfl, ?_, ?_⟩
  · rw [dbNewIterator, hs]
    rfl
  · intro iops
    have hfold : iops.foldl emptyIterStep ⟨Status.notSupported "snapshot"⟩
        = ⟨Status.notSupported "snapshot"⟩ := by
      induction iops with
      | nil => rfl
      | cons op rest ih =>
        rw [List.foldl_cons]
        exact ih
    rw [hfold]
    exact ⟨rfl, rfl⟩

/-- Witness for C10 at a concrete empty database and read options with
snapshot 5. -/
theorem snapshot_interface_rejected_witness :
    (⟨some 5⟩ : DBReadOptions).snapshot = some 5 ∧
    dbGetSnapshot ⟨0, ⟨[], 0⟩, none, [], none, 1, 0, []⟩ = none ∧
    dbNewIterator ⟨0, ⟨[], 0⟩, none, [], none, 1, 0, []⟩ ⟨some 5⟩
      = IterResult.errorIter (Status.notSupported "snapshot") := by
  have h := snapshot_interface_rejected
    ⟨0, ⟨[], 0⟩, none, [], none, 1, 0, []⟩ ⟨some 5⟩ 5 rfl
  exact ⟨rfl, h.1, h.2.1⟩

end Prism
